import Mathlib

/-!
Verification development for the p2pool share-chain core (`p2pool/data.py`).

We build a shallow embedding of the functions the claims are about.  Pure
Python functions become Lean functions; Python dicts become association
lists; machine integers become `Nat`/`Int`; fallible code returns
`Option`/`Except`.  External collaborators that are not part of the
repository slice under verification (the SHA-256 compression engine, the
binary packers, bitcoin hash helpers) enter as explicit parameters or as
definitions modelled from the specification, each marked as such.
-/

namespace P2Pool

/-! ## Byte-level utilities (model of `p2pool.util.pack` primitives)

Modelled from the spec: deterministic little-endian codecs (spec section 4.1);
`pack.py` itself is not part of the source slice. -/

/-- Little-endian byte encoding of `n` in exactly `k` bytes (`pack.IntType`). -/
def natToBytesLE : Nat → Nat → List Nat
  | 0, _ => []
  | k + 1, n => (n % 256) :: natToBytesLE k (n / 256)

/-- Big-endian byte encoding of `n` in exactly `k` bytes. -/
def natToBytesBE (k n : Nat) : List Nat :=
  (natToBytesLE k n).reverse

/-- Little-endian integer decoding of a byte list (`pack.IntType(256).unpack`). -/
def bytesToNatLE (bs : List Nat) : Nat :=
  bs.foldr (fun b acc => b + 256 * acc) 0

/-- Bitcoin-style var-int encoding (`pack.VarIntType`), modelled from the spec. -/
def varIntBytes (n : Nat) : List Nat :=
  if n < 253 then [n]
  else if n ≤ 0xffff then 253 :: natToBytesLE 2 n
  else if n ≤ 0xffffffff then 254 :: natToBytesLE 4 n
  else 255 :: natToBytesLE 8 n

/-- Length-prefixed byte string (`pack.VarStrType`), modelled from the spec. -/
def varStrBytes (s : List Nat) : List Nat :=
  varIntBytes s.length ++ s

/-! ## Incremental SHA-256 model

The repository's `p2pool/bitcoin/sha256.py` (the pure-python engine with an
exposed midstate) is not part of the source slice.  Modelled from the spec
(section 4.2): the engine keeps a 32-byte `state`, an unprocessed buffer of
fewer than 64 bytes and the bit length fed so far; full 64-byte blocks are
folded through a compression function.  We keep the compression function `f`
and the initial state `iv` abstract parameters: every theorem below holds
for an arbitrary compression function, hence in particular for SHA-256's. -/

/-- Fuel-driven block processor: folds each complete 64-byte block of `buf`
through `f`, returning the new state and the remaining (< 64 byte) buffer. -/
def pb (f : List Nat → List Nat → List Nat) : Nat → List Nat → List Nat → List Nat × List Nat
  | 0, st, buf => (st, buf)
  | fuel + 1, st, buf =>
    if 64 ≤ buf.length then pb f fuel (f st (buf.take 64)) (buf.drop 64) else (st, buf)

/-- Process all complete 64-byte blocks of `buf` (the buffer length itself is
always enough fuel, since each step consumes 64 bytes). -/
def processBlocks (f : List Nat → List Nat → List Nat) (st buf : List Nat) : List Nat × List Nat :=
  pb f buf.length st buf

/-- The running state of the incremental SHA-256 engine: midstate, buffered
tail bytes, and number of bits fed so far. -/
structure HashState where
  state : List Nat
  buf : List Nat
  length : Nat
deriving DecidableEq

/-- Fresh engine over initial state `iv`. -/
def hsInit (iv : List Nat) : HashState :=
  ⟨iv, [], 0⟩

/-- Feed `data` into the engine: append to the buffer, fold out the complete
blocks, and advance the bit counter. -/
def hsUpdate (f : List Nat → List Nat → List Nat) (hs : HashState) (data : List Nat) : HashState :=
  let r := processBlocks f hs.state (hs.buf ++ data)
  ⟨r.1, r.2, hs.length + 8 * data.length⟩

/-- Standard SHA-256 padding for a message of `length` bits: `0x80`, zeros up
to 56 mod 64 bytes, then the bit length as 8 big-endian bytes. -/
def shaPad (length : Nat) : List Nat :=
  let mdi := length / 8 % 64
  let padlen := if mdi < 56 then 56 - mdi else 120 - mdi
  0x80 :: (List.replicate (padlen - 1) 0 ++ natToBytesBE 8 length)

/-- Finalize: feed the padding and return the resulting state as the digest. -/
def hsDigest (f : List Nat → List Nat → List Nat) (hs : HashState) : List Nat :=
  (hsUpdate f hs (shaPad hs.length)).state

/-- One-shot SHA-256 of `data` from the initial state `iv`. -/
def shaRun (f : List Nat → List Nat → List Nat) (iv data : List Nat) : List Nat :=
  hsDigest f (hsUpdate f (hsInit iv) data)

/-- Model of `bitcoin_data.hash256`: double SHA-256, decoded as a 256-bit
little-endian integer. -/
def hash256int (f : List Nat → List Nat → List Nat) (iv data : List Nat) : Nat :=
  bytesToNatLE (shaRun f iv (shaRun f iv data))

/-! ## HashLink (`p2pool/data.py` lines 17-33) -/

/-- `hash_link_type`: midstate, buffered extra bytes, byte length of the
committed prefix. -/
structure HashLink where
  state : List Nat
  extra_data : List Nat
  length : Nat
deriving DecidableEq

/-- `prefix_to_hash_link(prefix, const_ending)` from the source: requires the
prefix to end with `const_ending`; runs SHA-256 over the prefix and keeps the
midstate, the buffered bytes minus the constant ending, and the byte length.
(The Python `assert` becomes the `Option` guard.) -/
def pfx_to_hash_link (f : List Nat → List Nat → List Nat) (iv p ce : List Nat) :
    Option HashLink :=
  if ce.isSuffixOf p then
    some ⟨(hsUpdate f (hsInit iv) p).state,
      (hsUpdate f (hsInit iv) p).buf.take ((hsUpdate f (hsInit iv) p).buf.length - ce.length),
      (hsUpdate f (hsInit iv) p).length / 8⟩
  else none

/-- `check_hash_link(hash_link, data, const_ending)` from the source:
reconstructs the buffered tail from `extra_data ++ const_ending`, resumes
SHA-256 from the midstate over that tail followed by `data`, finalizes, and
hashes the digest once more, returning a 256-bit integer.  The two Python
`assert`s become `Option` guards. -/
def check_hash_link (f : List Nat → List Nat → List Nat) (iv : List Nat)
    (hl : HashLink) (data ce : List Nat) : Option Nat :=
  if hl.extra_data.length = hl.length % 64 - ce.length then
    if ((hl.extra_data ++ ce).drop
        (hl.extra_data.length + ce.length - hl.length % 64)).length = hl.length % 64 then
      some (bytesToNatLE (shaRun f iv (hsDigest f (hsUpdate f
        ⟨hl.state,
         (hl.extra_data ++ ce).drop (hl.extra_data.length + ce.length - hl.length % 64),
         8 * hl.length⟩ data))))
    else none
  else none

/-! ## Share data model (`p2pool/data.py` lines 37-109, 356-409, 605-653)

Composite wire types become Lean structures; `FloatingInteger` fields
(`max_bits`, `bits`) are modelled by the targets they decode to, since no
claim concerns the compact encoding itself. -/

/-- Reasons carried by errors; the Python strings become an enum. -/
inductive ErrReason
  | obsoleteShare | unknownType | badCoinbaseSize | merkleBranchTooLong
  | extraDataNonempty | refShareCountTooBig | newTxHashNotRefd | hashLinkAssert
  | targetInvalid | powInvalid | otherTxsProvided | otherTxsMissing | unpackFailed
  | merkleMismatch | switchHistory | switchHashPower | cantFollow
deriving DecidableEq

/-- The three kinds of failure the loaded code can raise: `PeerMisbehavingError`,
`ValueError`, and a failing `assert`. -/
inductive ShareError
  | peerMisbehaving (r : ErrReason)
  | valueError (r : ErrReason)
  | assertionError (r : ErrReason)
deriving DecidableEq

/-- `True` exactly for `PeerMisbehavingError`. -/
def ShareError.isPeerM : ShareError → Bool
  | .peerMisbehaving _ => true
  | _ => false

/-- One entry of `transaction_hash_refs`. -/
structure TxRef where
  share_count : Nat
  tx_count : Nat
deriving DecidableEq

/-- `share_data` record, common to all versions. -/
structure ShareData where
  previous_share_hash : Option Nat
  coinbase : List Nat
  nonce : Nat
  pubkey_hash : Nat
  subsidy : Nat
  donation : Nat
  stale_info : Nat
  desired_version : Nat
deriving DecidableEq

structure MerkleLink where
  branch : List Nat
  index : Nat
deriving DecidableEq

/-- `share_info` for V8 (`NewShare`) and V9 (`NewNewShare`); the two types are
field-for-field identical in the source. -/
structure ShareInfoNew where
  share_data : ShareData
  new_transaction_hashes : List Nat
  transaction_hash_refs : List TxRef
  far_share_hash : Option Nat
  max_bits : Nat
  bits : Nat
  timestamp : Nat
deriving DecidableEq

/-- `share_info` for V7 (`Share`): no transaction-hash compression fields. -/
structure ShareInfo7 where
  share_data : ShareData
  far_share_hash : Option Nat
  max_bits : Nat
  bits : Nat
  timestamp : Nat
deriving DecidableEq

/-- `small_block_header_type`: the block header minus its merkle root. -/
structure SmallHeader where
  version : Nat
  previous_block : Option Nat
  timestamp : Nat
  bits : Nat
  nonce : Nat
deriving DecidableEq

/-- A full block header: the small header plus the recomputed merkle root. -/
structure Header extends SmallHeader where
  merkle_root : Nat
deriving DecidableEq

/-- Wire contents of a V9 share (`NewNewShare.share_type`). -/
structure Contents9 where
  min_header : SmallHeader
  share_info : ShareInfoNew
  ref_merkle_link : MerkleLink
  last_txout_nonce : Nat
  hash_link : HashLink
  merkle_link : MerkleLink
deriving DecidableEq

/-- Wire contents of a V8 share (`NewShare.share_type`): same as V9 without
`last_txout_nonce`. -/
structure Contents8 where
  min_header : SmallHeader
  share_info : ShareInfoNew
  ref_merkle_link : MerkleLink
  hash_link : HashLink
  merkle_link : MerkleLink
deriving DecidableEq

/-- Wire contents common to both V7 encodings (`Share.share_common_type`). -/
structure Common7 where
  min_header : SmallHeader
  share_info : ShareInfo7
  ref_merkle_link : MerkleLink
  hash_link : HashLink
deriving DecidableEq

/-- Network constants. -/
structure Net where
  IDENTIFIER : List Nat
  SHARE_PERIOD : Nat
  CHAIN_LENGTH : Nat
  REAL_CHAIN_LENGTH : Nat
  TARGET_LOOKBEHIND : Nat
  SPREAD : Nat
  MIN_TARGET : Nat
  MAX_TARGET : Nat
deriving DecidableEq

/-- External helpers from `p2pool.bitcoin.data` (serialization, merkle
computations, the parent network's proof-of-work function).  They are not part
of the source slice, so they enter as opaque function parameters; every
theorem holds for arbitrary instantiations. -/
structure Ext where
  pow : Header → Nat
  headerHash : Header → Nat
  checkMerkleLink : Nat → MerkleLink → Nat
  refHashNew : List Nat → ShareInfoNew → MerkleLink → List Nat
  refHash7 : List Nat → ShareInfo7 → MerkleLink → List Nat
  calcMerkleLink : List Nat → MerkleLink
  txHash : Nat → Nat

/-- `DONATION_SCRIPT` (line 58): the fixed 67-byte pay-to-pubkey script. -/
def DONATION_SCRIPT : List Nat :=
  natToBytesBE 67 0x4104ffd03de44a6e11b9917f3a29f9443283d9871c9d743ef30d5eddcd37094b64d1b3d8090496b53256786bf5c82932ec23c3b74d9f05a6f95a8b5529352656664bac

/-- `NewNewShare.gentx_before_refhash` (line 116). -/
def gentx_before_refhash_new : List Nat :=
  varStrBytes DONATION_SCRIPT ++ natToBytesLE 8 0 ++
    (varStrBytes (0x24 :: (natToBytesLE 32 0 ++ natToBytesLE 4 0))).take 2

/-- `Share.gentx_before_refhash` = `NewShare.gentx_before_refhash`
(lines 413, 660). -/
def gentx_before_refhash_old : List Nat :=
  varStrBytes DONATION_SCRIPT ++ natToBytesLE 8 0 ++
    (varStrBytes (0x20 :: natToBytesLE 32 0)).take 2

/-- The validated V8/V9 share object (the attributes `__init__` computes). -/
structure ShareObjNew where
  peer : Option Nat
  min_header : SmallHeader
  share_info : ShareInfoNew
  hash_link : HashLink
  merkle_link : MerkleLink
  share_data : ShareData
  max_target : Nat
  target : Nat
  timestamp : Nat
  previous_hash : Option Nat
  desired_version : Nat
  gentx_hash : Nat
  header : Header
  pow_hash : Nat
  hash : Nat
  new_transaction_hashes : List Nat
deriving DecidableEq

/-- The validated V7 share object. -/
structure ShareObj7 where
  peer : Option Nat
  min_header : SmallHeader
  share_info : ShareInfo7
  hash_link : HashLink
  merkle_link : MerkleLink
  other_txs : Option (List Nat)
  share_data : ShareData
  max_target : Nat
  target : Nat
  timestamp : Nat
  previous_hash : Option Nat
  desired_version : Nat
  gentx_hash : Nat
  header : Header
  pow_hash : Nat
  hash : Nat
deriving DecidableEq

/-- `NewNewShare.__init__` (lines 220-272): the construction-time validation of
a V9 share.  Python exceptions become `Except` errors, in source order:
coinbase size, merkle-branch depth, empty `extra_data`, the
`transaction_hash_refs` asserts, the hash-link asserts, then
`target > MAX_TARGET` and `pow_hash > target` as `PeerMisbehavingError`s. -/
def NewNewShare.init (f : List Nat → List Nat → List Nat) (iv : List Nat) (E : Ext)
    (net : Net) (peer : Option Nat) (c : Contents9) : Except ShareError ShareObjNew :=
  if ¬(2 ≤ c.share_info.share_data.coinbase.length ∧
      c.share_info.share_data.coinbase.length ≤ 100) then
    .error (.valueError .badCoinbaseSize)
  else if 16 < c.merkle_link.branch.length then
    .error (.valueError .merkleBranchTooLong)
  else if c.hash_link.extra_data ≠ [] then
    .error (.assertionError .extraDataNonempty)
  else if ¬ c.share_info.transaction_hash_refs.all (fun x => x.share_count < 110) then
    .error (.assertionError .refShareCountTooBig)
  else if ¬ (List.range c.share_info.new_transaction_hashes.length).all
      (fun i => c.share_info.transaction_hash_refs.contains ⟨0, i⟩) then
    .error (.assertionError .newTxHashNotRefd)
  else
    match check_hash_link f iv c.hash_link
        (E.refHashNew net.IDENTIFIER c.share_info c.ref_merkle_link ++
          natToBytesLE 4 c.last_txout_nonce ++ natToBytesLE 4 0)
        gentx_before_refhash_new with
    | none => .error (.assertionError .hashLinkAssert)
    | some gentx_hash =>
      if net.MAX_TARGET < c.share_info.bits then
        .error (.peerMisbehaving .targetInvalid)
      else if c.share_info.bits <
          E.pow ⟨c.min_header, E.checkMerkleLink gentx_hash c.merkle_link⟩ then
        .error (.peerMisbehaving .powInvalid)
      else
        .ok { peer := peer
              min_header := c.min_header
              share_info := c.share_info
              hash_link := c.hash_link
              merkle_link := c.merkle_link
              share_data := c.share_info.share_data
              max_target := c.share_info.max_bits
              target := c.share_info.bits
              timestamp := c.share_info.timestamp
              previous_hash := c.share_info.share_data.previous_share_hash
              desired_version := c.share_info.share_data.desired_version
              gentx_hash := gentx_hash
              header := ⟨c.min_header, E.checkMerkleLink gentx_hash c.merkle_link⟩
              pow_hash := E.pow ⟨c.min_header, E.checkMerkleLink gentx_hash c.merkle_link⟩
              hash := E.headerHash ⟨c.min_header, E.checkMerkleLink gentx_hash c.merkle_link⟩
              new_transaction_hashes := c.share_info.new_transaction_hashes }

/-- `NewShare.__init__` (lines 763-815): identical to the V9 constructor
except that the hash-link data has no `last_txout_nonce` and the constant
ending is the `0x20`-tagged one. -/
def NewShare.init (f : List Nat → List Nat → List Nat) (iv : List Nat) (E : Ext)
    (net : Net) (peer : Option Nat) (c : Contents8) : Except ShareError ShareObjNew :=
  if ¬(2 ≤ c.share_info.share_data.coinbase.length ∧
      c.share_info.share_data.coinbase.length ≤ 100) then
    .error (.valueError .badCoinbaseSize)
  else if 16 < c.merkle_link.branch.length then
    .error (.valueError .merkleBranchTooLong)
  else if c.hash_link.extra_data ≠ [] then
    .error (.assertionError .extraDataNonempty)
  else if ¬ c.share_info.transaction_hash_refs.all (fun x => x.share_count < 110) then
    .error (.assertionError .refShareCountTooBig)
  else if ¬ (List.range c.share_info.new_transaction_hashes.length).all
      (fun i => c.share_info.transaction_hash_refs.contains ⟨0, i⟩) then
    .error (.assertionError .newTxHashNotRefd)
  else
    match check_hash_link f iv c.hash_link
        (E.refHashNew net.IDENTIFIER c.share_info c.ref_merkle_link ++ natToBytesLE 4 0)
        gentx_before_refhash_old with
    | none => .error (.assertionError .hashLinkAssert)
    | some gentx_hash =>
      if net.MAX_TARGET < c.share_info.bits then
        .error (.peerMisbehaving .targetInvalid)
      else if c.share_info.bits <
          E.pow ⟨c.min_header, E.checkMerkleLink gentx_hash c.merkle_link⟩ then
        .error (.peerMisbehaving .powInvalid)
      else
        .ok { peer := peer
              min_header := c.min_header
              share_info := c.share_info
              hash_link := c.hash_link
              merkle_link := c.merkle_link
              share_data := c.share_info.share_data
              max_target := c.share_info.max_bits
              target := c.share_info.bits
              timestamp := c.share_info.timestamp
              previous_hash := c.share_info.share_data.previous_share_hash
              desired_version := c.share_info.share_data.desired_version
              gentx_hash := gentx_hash
              header := ⟨c.min_header, E.checkMerkleLink gentx_hash c.merkle_link⟩
              pow_hash := E.pow ⟨c.min_header, E.checkMerkleLink gentx_hash c.merkle_link⟩
              hash := E.headerHash ⟨c.min_header, E.checkMerkleLink gentx_hash c.merkle_link⟩
              new_transaction_hashes := c.share_info.new_transaction_hashes }

/-- `Share.__init__` (lines 494-545): the V7 constructor.  `p2pool.DEBUG`
becomes the `dbg` flag; `other_txs` entries are abstract transactions hashed
through `E.txHash`.  After the PoW check, a non-block share must not carry
inline transactions and a block solution must. -/
def Share.init (f : List Nat → List Nat → List Nat) (iv : List Nat) (E : Ext)
    (dbg : Bool) (net : Net) (peer : Option Nat) (common : Common7)
    (merkle_link : MerkleLink) (other_txs : Option (List Nat)) :
    Except ShareError ShareObj7 :=
  if 100 < common.share_info.share_data.coinbase.length then
    .error (.valueError .badCoinbaseSize)
  else if 16 < merkle_link.branch.length then
    .error (.valueError .merkleBranchTooLong)
  else if dbg && (match other_txs with
      | some txs => decide (E.calcMerkleLink (0 :: txs.map E.txHash) ≠ merkle_link)
      | none => false) then
    .error (.valueError .merkleMismatch)
  else if common.hash_link.extra_data ≠ [] then
    .error (.assertionError .extraDataNonempty)
  else
    match check_hash_link f iv common.hash_link
        (E.refHash7 net.IDENTIFIER common.share_info common.ref_merkle_link ++
          natToBytesLE 4 0)
        gentx_before_refhash_old with
    | none => .error (.assertionError .hashLinkAssert)
    | some gentx_hash =>
      if common.share_info.bits <
          E.pow ⟨common.min_header, E.checkMerkleLink gentx_hash merkle_link⟩ then
        .error (.peerMisbehaving .powInvalid)
      else if other_txs.isSome ∧
          ¬(E.pow ⟨common.min_header, E.checkMerkleLink gentx_hash merkle_link⟩ ≤
            common.min_header.bits) then
        .error (.valueError .otherTxsProvided)
      else if other_txs.isNone ∧
          E.pow ⟨common.min_header, E.checkMerkleLink gentx_hash merkle_link⟩ ≤
            common.min_header.bits then
        .error (.valueError .otherTxsMissing)
      else
        .ok { peer := peer
              min_header := common.min_header
              share_info := common.share_info
              hash_link := common.hash_link
              merkle_link := merkle_link
              other_txs := other_txs
              share_data := common.share_info.share_data
              max_target := common.share_info.max_bits
              target := common.share_info.bits
              timestamp := common.share_info.timestamp
              previous_hash := common.share_info.share_data.previous_share_hash
              desired_version := common.share_info.share_data.desired_version
              gentx_hash := gentx_hash
              header := ⟨common.min_header, E.checkMerkleLink gentx_hash merkle_link⟩
              pow_hash := E.pow ⟨common.min_header, E.checkMerkleLink gentx_hash merkle_link⟩
              hash := E.headerHash ⟨common.min_header, E.checkMerkleLink gentx_hash merkle_link⟩ }

/-- The wire envelope `share_type` (lines 37-40). -/
structure Envelope where
  ty : Nat
  contents : List Nat
deriving DecidableEq

/-- The unpackers for each recognized payload type; the packers live in
`p2pool.util.pack`, outside the source slice, so they enter as parameters
returning `none` on malformed bytes. -/
structure Parsers where
  parse1a : List Nat → Option (Common7 × MerkleLink)
  parse1b : List Nat → Option (Common7 × List Nat)
  parse8 : List Nat → Option Contents8
  parse9 : List Nat → Option Contents9

/-- The result of `load_share`: one of the three share variants. -/
inductive Loaded
  | v7 (s : ShareObj7)
  | v8 (s : ShareObjNew)
  | v9 (s : ShareObjNew)
deriving DecidableEq

/-- `load_share` (lines 42-56): dispatch on the envelope type.  Types 0-3 are
obsolete (`PeerMisbehavingError`); 4 and 5 build a V7 `Share` (without and
with inline transactions, the latter recomputing the merkle link); 8 builds a
V8 `NewShare`; 9 a V9 `NewNewShare`; anything else raises `ValueError`. -/
def load_share (f : List Nat → List Nat → List Nat) (iv : List Nat) (E : Ext)
    (P : Parsers) (dbg : Bool) (net : Net) (peer : Option Nat) (env : Envelope) :
    Except ShareError Loaded :=
  if env.ty = 0 ∨ env.ty = 1 ∨ env.ty = 2 ∨ env.ty = 3 then
    .error (.peerMisbehaving .obsoleteShare)
  else if env.ty = 4 then
    match P.parse1a env.contents with
    | none => .error (.valueError .unpackFailed)
    | some (common, ml) => (Share.init f iv E dbg net peer common ml none).map .v7
  else if env.ty = 5 then
    match P.parse1b env.contents with
    | none => .error (.valueError .unpackFailed)
    | some (common, otxs) =>
      (Share.init f iv E dbg net peer common
        (E.calcMerkleLink (0 :: otxs.map E.txHash)) (some otxs)).map .v7
  else if env.ty = 8 then
    match P.parse8 env.contents with
    | none => .error (.valueError .unpackFailed)
    | some c => (NewShare.init f iv E net peer c).map .v8
  else if env.ty = 9 then
    match P.parse9 env.contents with
    | none => .error (.valueError .unpackFailed)
    | some c => (NewNewShare.init f iv E net peer c).map .v9
  else .error (.valueError .unknownType)

/-! ## Payout amounts (`generate_transaction`, lines 140-148 / 437-445 / 684-692)

The amount pipeline is identical across the three versions.  Scripts are
modelled as the integers their byte strings encode; Python dicts become
association lists in insertion order (`dictSet` replaces in place or appends,
like a dict assignment). -/

/-- `DONATION_SCRIPT` as the integer its 67 bytes encode (scripts are modelled
as integers in the payout pipeline). -/
def DONATION_SCRIPT_N : Nat :=
  0x4104ffd03de44a6e11b9917f3a29f9443283d9871c9d743ef30d5eddcd37094b64d1b3d8090496b53256786bf5c82932ec23c3b74d9f05a6f95a8b5529352656664bac

/-- `amounts.get(k, 0)`. -/
def dictGet (m : List (Nat × Int)) (k : Nat) : Int :=
  ((m.find? (fun p => p.1 == k)).map Prod.snd).getD 0

/-- `amounts[k] = v`: replace the entry in place, or append a new one. -/
def dictSet (m : List (Nat × Int)) (k : Nat) (v : Int) : List (Nat × Int) :=
  if m.any (fun p => p.1 == k) then m.map (fun p => if p.1 == k then (k, v) else p)
  else m ++ [(k, v)]

/-- `sum(amounts.itervalues())`. -/
def sumVals (m : List (Nat × Int)) : Int :=
  (m.map Prod.snd).sum

/-- The sort key of line 148: `(script == DONATION_SCRIPT, amounts[script],
script)`, compared lexicographically. -/
def destKey (m : List (Nat × Int)) (s : Nat) : Lex (Bool × Lex (Int × Nat)) :=
  toLex (decide (s = DONATION_SCRIPT_N), toLex (dictGet m s, s))

def destLe (m : List (Nat × Int)) (a b : Nat) : Prop :=
  destKey m a ≤ destKey m b

instance (m : List (Nat × Int)) : DecidableRel (destLe m) := fun a b =>
  inferInstanceAs (Decidable (destKey m a ≤ destKey m b))

instance (m : List (Nat × Int)) : IsTotal Nat (destLe m) :=
  ⟨fun a b => le_total (destKey m a) (destKey m b)⟩

instance (m : List (Nat × Int)) : IsTrans Nat (destLe m) :=
  ⟨fun _ _ _ hab hbc => le_trans hab hbc⟩

/-- Python `l[-k:]`: the last `k` elements (all of them when `l` is shorter). -/
def lastN (k : Nat) (l : List Nat) : List Nat :=
  l.drop (l.length - k)

structure GenAmounts where
  amounts : List (Nat × Int)
  dests : List Nat
deriving DecidableEq

inductive GenErr
  | zeroDivision | badAmounts
deriving DecidableEq

/-- Line 140: `subsidy*(199*weight)//(200*total_weight)` per weighted script. -/
def amountsBase (subsidy : Nat) (weights : List (Nat × Nat)) (tw : Nat) : List (Nat × Int) :=
  weights.map (fun p => (p.1, (subsidy : Int) * (199 * (p.2 : Int)) / (200 * (tw : Int))))

/-- Line 142: add `subsidy // 200` to the block finder's script. -/
def gaM1 (subsidy : Nat) (weights : List (Nat × Nat)) (tw : Nat)
    (this_script : Nat) : List (Nat × Int) :=
  dictSet (amountsBase subsidy weights tw) this_script
    (dictGet (amountsBase subsidy weights tw) this_script + (subsidy : Int) / 200)

/-- Line 143: the donation script absorbs `subsidy - sum(amounts)`. -/
def gaM2 (subsidy : Nat) (weights : List (Nat × Nat)) (tw : Nat)
    (this_script : Nat) : List (Nat × Int) :=
  dictSet (gaM1 subsidy weights tw this_script) DONATION_SCRIPT_N
    (dictGet (gaM1 subsidy weights tw this_script) DONATION_SCRIPT_N +
      (subsidy : Int) - sumVals (gaM1 subsidy weights tw this_script))

/-- Lines 140-148: the payout split.  99.5% by weights, 0.5% to the current
pubkey script, the residue to the donation script; then the explicit
`sum == subsidy` / non-negativity check and the sorted, 4000-capped
destination list.  A nonempty weight dict with zero total would raise
`ZeroDivisionError` in Python, modelled as `.error .zeroDivision`. -/
def generate_amounts (subsidy : Nat) (weights : List (Nat × Nat)) (tw : Nat)
    (this_script : Nat) : Except GenErr GenAmounts :=
  if weights ≠ [] ∧ tw = 0 then .error .zeroDivision
  else if sumVals (gaM2 subsidy weights tw this_script) ≠ (subsidy : Int) ∨
      (gaM2 subsidy weights tw this_script).any (fun p => p.2 < 0) then
    .error .badAmounts
  else
    .ok ⟨gaM2 subsidy weights tw this_script,
      lastN 4000 (List.insertionSort (destLe (gaM2 subsidy weights tw this_script))
        ((gaM2 subsidy weights tw this_script).map Prod.fst))⟩

/-- Lines 184-196 / 458-470: the coinbase outputs.  A destination appears only
if its amount is nonzero or it is the donation script; the trailing output is
the zero-value ref-hash script. -/
def generate_tx_outs (am : List (Nat × Int)) (dests : List Nat) (refScript : Nat) :
    List (Int × Nat) :=
  (dests.filter (fun s => (dictGet am s != 0) || (s == DONATION_SCRIPT_N))).map
    (fun s => (dictGet am s, s)) ++ [(0, refScript)]

/-! ## Successor gate (`check`, lines 280-297 / 562-579 / 823-840) -/

/-- The three concrete share types. -/
inductive ShTy
  | v7 | v8 | v9
deriving DecidableEq

/-- `VERSION` per type. -/
def VERSION_of : ShTy → Nat
  | .v7 => 7
  | .v8 => 8
  | .v9 => 9

/-- `SUCCESSOR` per type: `Share.SUCCESSOR = NewShare.SUCCESSOR = NewNewShare`,
`NewNewShare.SUCCESSOR = None` (lines 62, 358, 607). -/
def SUCCESSOR_of : ShTy → Option ShTy
  | .v7 => some .v9
  | .v8 => some .v9
  | .v9 => none

/-- `bitcoin_data.target_to_average_attempts`, modelled from its standard
definition `2**256 // (target + 1)` (the module is outside the source slice). -/
def target_to_average_attempts (t : Nat) : Nat :=
  2 ^ 256 / (t + 1)

/-- The per-share data the version vote reads. -/
structure VoteShare where
  desired_version : Nat
  target : Nat
deriving DecidableEq

def countsGet (m : List (Nat × Nat)) (k : Nat) : Nat :=
  ((m.find? (fun p => p.1 == k)).map Prod.snd).getD 0

def countsSet (m : List (Nat × Nat)) (k v : Nat) : List (Nat × Nat) :=
  if m.any (fun p => p.1 == k) then m.map (fun p => if p.1 == k then (k, v) else p)
  else m ++ [(k, v)]

/-- `get_desired_version_counts` (lines 1116-1120): work-weighted tally of
`desired_version` votes over the given window of shares. -/
def get_desired_version_counts (chain : List VoteShare) : List (Nat × Nat) :=
  chain.foldl
    (fun res share => countsSet res share.desired_version
      (countsGet res share.desired_version + target_to_average_attempts share.target))
    []

def countsSum (m : List (Nat × Nat)) : Nat :=
  (m.map Prod.snd).sum

/-- The type-succession gate at the head of `check` (lines 282-297): same type
passes; the declared successor needs chain depth `≥ CHAIN_LENGTH` and the
`85//100` work-weighted vote over the sampled window; anything else is
`PeerMisbehaving`.  `window` stands for the `CHAIN_LENGTH//10` shares starting
at the `9*CHAIN_LENGTH//10`-th ancestor. -/
def version_switch_check (selfT prevT : ShTy) (prevHeight CL : Nat)
    (window : List VoteShare) : Except ShareError Unit :=
  if prevT = selfT then .ok ()
  else if SUCCESSOR_of prevT = some selfT then
    if prevHeight < CL then .error (.peerMisbehaving .switchHistory)
    else if countsGet (get_desired_version_counts window) (VERSION_of selfT) <
        countsSum (get_desired_version_counts window) * 85 / 100 then
      .error (.peerMisbehaving .switchHashPower)
    else .ok ()
  else .error (.peerMisbehaving .cantFollow)

/-! ## Weights skiplist (`WeightsSkipList`, lines 900-935)

`get_delta`, `combine_deltas`, `apply_delta` and `judge` are from the source.
The generic skiplist traversal lives in `p2pool.util.forest`/`skiplist`,
outside the source slice; modelled from the spec (section 4.4) as walking the
chain backward one share at a time, stopping as soon as `judge` is
non-negative. -/

/-- The per-share attributes the weight delta reads. -/
structure WShare where
  new_script : Nat
  donation : Nat
  target : Nat
deriving DecidableEq

/-- A delta: share count, per-script weights, total weight, donation weight. -/
structure WDelta where
  share_count : Nat
  weights : List (Nat × Nat)
  total : Nat
  donation : Nat
deriving DecidableEq

/-- `get_delta` (lines 903-907). -/
def get_delta (s : WShare) : WDelta :=
  ⟨1, [(s.new_script, target_to_average_attempts s.target * (65535 - s.donation))],
   target_to_average_attempts s.target * 65535,
   target_to_average_attempts s.target * s.donation⟩

/-- A partial solution: share count, linked list of weight dicts, total
weight, donation weight (the `initial_solution` shape, lines 912-914). -/
structure WSol where
  share_count : Nat
  weights_list : List (List (Nat × Nat))
  total : Nat
  donation : Nat
deriving DecidableEq

/-- `judge` (lines 924-930). -/
def wjudge (sol : WSol) (max_shares desired : Nat) : Int :=
  if max_shares < sol.share_count ∨ desired < sol.total then 1
  else if sol.share_count = max_shares ∨ sol.total = desired then 0
  else -1

/-- `apply_delta` (lines 916-922): when the accumulated total would overshoot
`desired` and the delta covers exactly one share, truncate that share's
contribution proportionally so the total lands exactly on `desired`.  The
Python `assert` and single-key unpacking become `Option` guards. -/
def apply_delta (sol : WSol) (d : WDelta) (max_shares desired : Nat) : Option WSol :=
  if desired < sol.total + d.total ∧ d.share_count = 1 then
    if (desired - sol.total) % 65535 = 0 then
      match d.weights with
      | [(script, w)] =>
        some ⟨sol.share_count + d.share_count,
          [(script, (desired - sol.total) / 65535 * w / (d.total / 65535))] ::
            sol.weights_list,
          desired,
          sol.donation + (desired - sol.total) / 65535 * d.donation / (d.total / 65535)⟩
      | _ => none
    else none
  else
    some ⟨sol.share_count + d.share_count, d.weights :: sol.weights_list,
      sol.total + d.total, sol.donation + d.donation⟩

/-- Modelled from the spec: the skiplist query walks the chain backward one
share at a time, stopping as soon as `judge` is non-negative. -/
def weights_walk (max_shares desired : Nat) : WSol → List WShare → Option WSol
  | sol, [] => some sol
  | sol, s :: rest =>
    if 0 ≤ wjudge sol max_shares desired then some sol
    else
      match apply_delta sol (get_delta s) max_shares desired with
      | none => none
      | some sol2 => weights_walk max_shares desired sol2 rest

/-- The cumulative-weights query over a chain (spec section 4.4); the
`initial_solution` assert `desired_weight % 65535 == 0` becomes the guard. -/
def get_cumulative_weights (chain : List WShare) (max_shares desired : Nat) :
    Option WSol :=
  if desired % 65535 = 0 then weights_walk max_shares desired ⟨0, [], 0, 0⟩ chain
  else none

/-! ## Timestamp clamp (`generate_transaction`, lines 176-179) -/

/-- `p2pool.util.math.clip`, modelled from the spec ("clamp"): pull `x` into
the closed interval `[lo, hi]`. -/
def clip (x lo hi : Int) : Int :=
  if x < lo then lo else if hi < x then hi else x

/-- The `timestamp` field of the generated `share_info` (lines 176-179): clip
the desired timestamp to `previous.timestamp + SHARE_PERIOD ± (SHARE_PERIOD-1)`
when a previous share exists, else take it unchanged. -/
def generate_timestamp (prev_timestamp : Option Int) (SHARE_PERIOD desired : Int) : Int :=
  match prev_timestamp with
  | some p =>
    clip desired ((p + SHARE_PERIOD) - (SHARE_PERIOD - 1))
      ((p + SHARE_PERIOD) + (SHARE_PERIOD - 1))
  | none => desired

/-! ## `think` request filtering (`OkayTracker.think`, lines 1037-1055) -/

/-- One element of the `desired` set: `(peer, hash, ts, targ)`. -/
structure DesiredEntry where
  peer : Option Nat
  hash : Nat
  ts : Int
  targ : Nat
deriving DecidableEq

/-- Lines 1044 and 1047: `min(now, best.timestamp) - 3600` with a best head,
else `now - 24*60*60`. -/
def think_timestamp_cutoff (now : Int) (best_ts : Option Int) : Int :=
  match best_ts with
  | some b => min now b - 3600
  | none => now - 24 * 60 * 60

/-- Lines 1045 and 1048: `2**256//(SHARE_PERIOD*rate + 1) * 2` when the best
tail has a rate estimate, else `2**256 - 1`. -/
def think_target_cutoff (P : Nat) (best_ts : Option Int) (rate : Option Nat) : Nat :=
  match best_ts with
  | some _ =>
    match rate with
    | some r => 2 ^ 256 / (P * r + 1) * 2
    | none => 2 ^ 256 - 1
  | none => 2 ^ 256 - 1

/-- Line 1055: the want-request list `think` returns.  The source filters the
`desired` entries by the timestamp cutoff only. -/
def think_requests (now : Int) (best_ts : Option Int) (rate : Option Nat) (P : Nat)
    (desired : List DesiredEntry) : List (Option Nat × Nat) :=
  (desired.filter (fun e => decide (think_timestamp_cutoff now best_ts ≤ e.ts))).map
    (fun e => (e.peer, e.hash))

/-- The claim's (and spec's) description of the same list: filter by the
timestamp cutoff AND the target cutoff.  Kept separate so the two can be
compared. -/
def think_requests_claim (now : Int) (best_ts : Option Int) (rate : Option Nat) (P : Nat)
    (desired : List DesiredEntry) : List (Option Nat × Nat) :=
  (desired.filter (fun e => decide (think_timestamp_cutoff now best_ts ≤ e.ts ∧
      e.targ ≤ think_target_cutoff P best_ts rate))).map
    (fun e => (e.peer, e.hash))

/-! ## Concrete instances used by witnesses and counterexamples -/

/-- A trivial compression function (theorems hold for any). -/
def cf : List Nat → List Nat → List Nat := fun s _ => s

def civ : List Nat := List.replicate 32 0

def cML : MerkleLink := ⟨[], 0⟩

def cHL : HashLink := ⟨[], [], 0⟩

def cExt : Ext :=
  ⟨fun _ => 0, fun _ => 0, fun h _ => h, fun _ _ _ => List.replicate 32 0,
   fun _ _ _ => List.replicate 32 0, fun _ => ⟨[], 0⟩, fun _ => 0⟩

/-- Like `cExt` but with a proof-of-work hash above the share target. -/
def cExtHigh : Ext :=
  ⟨fun _ => 500, fun _ => 0, fun h _ => h, fun _ _ _ => List.replicate 32 0,
   fun _ _ _ => List.replicate 32 0, fun _ => ⟨[], 0⟩, fun _ => 0⟩

/-- Like `cExt` but with a proof-of-work hash between the block target and the
share target. -/
def cExt5 : Ext :=
  ⟨fun _ => 5, fun _ => 0, fun h _ => h, fun _ _ _ => List.replicate 32 0,
   fun _ _ _ => List.replicate 32 0, fun _ => ⟨[], 0⟩, fun _ => 0⟩

def cNet : Net := ⟨[], 10, 100, 100, 10, 3, 0, 2 ^ 256 - 1⟩

def cSmall : SmallHeader := ⟨1, none, 0, 3, 0⟩

def cShareData : ShareData := ⟨none, [0, 0], 0, 0, 0, 0, 0, 9⟩

def cInfo9 : ShareInfoNew := ⟨cShareData, [], [], none, 100, 100, 0⟩

def cC9 : Contents9 := ⟨cSmall, cInfo9, cML, 0, cHL, cML⟩

def cC8 : Contents8 := ⟨cSmall, cInfo9, cML, cHL, cML⟩

def cInfo7 : ShareInfo7 := ⟨cShareData, none, 100, 100, 0⟩

def cCommon7 : Common7 := ⟨cSmall, cInfo7, cML, cHL⟩

/-- The V9 share `NewNewShare.init cf civ cExt cNet none cC9` constructs. -/
def cS9 : ShareObjNew :=
  ⟨none, cSmall, cInfo9, cHL, cML, cShareData, 100, 100, 0, none, 9, 0,
   ⟨cSmall, 0⟩, 0, 0, []⟩

/-- The V7 share `Share.init cf civ cExt5 false cNet none cCommon7 cML none`
constructs. -/
def cS7 : ShareObj7 :=
  ⟨none, cSmall, cInfo7, cHL, cML, none, cShareData, 100, 100, 0, none, 9, 0,
   ⟨cSmall, 0⟩, 5, 0⟩

def cParsers : Parsers := ⟨fun _ => none, fun _ => none, fun _ => none, fun _ => none⟩

/-- The 10-share chain with unit attempts for the weight-truncation scenario. -/
def c6chain : List WShare :=
  (List.range 10).map (fun i => ⟨i, 0, 2 ^ 256 - 1⟩)

/-- The result of `generate_amounts 1000 [(1, 3), (2, 7)] 10 1`: script 1 gets
`1000*597//2000 + 5 = 303`, script 2 gets `1000*1393//2000 = 696`, the
donation script absorbs the residue 1. -/
def c10g : GenAmounts :=
  ⟨[(1, 303), (2, 696), (DONATION_SCRIPT_N, 1)], [1, 2, DONATION_SCRIPT_N]⟩

/-! # Theorems -/

@[simp] theorem natToBytesLE_length (k n : Nat) : (natToBytesLE k n).length = k := by
  induction k generalizing n with
  | zero => rfl
  | succ k ih => simp [natToBytesLE, ih]

/-! ### Lemmas about the block processor -/

theorem pb_succ_of_le (f : List Nat → List Nat → List Nat) :
    ∀ (n : Nat) (st buf : List Nat), buf.length ≤ n →
      pb f (n + 1) st buf = pb f n st buf := by
  intro n
  induction n with
  | zero =>
    intro st buf hlen
    have hb : buf = [] := List.length_eq_zero.mp (Nat.le_zero.mp hlen)
    subst hb
    simp [pb]
  | succ m ih =>
    intro st buf hlen
    show pb f (m + 1 + 1) st buf = pb f (m + 1) st buf
    simp only [pb]
    split
    · next hge =>
      exact ih _ _ (by simp [List.length_drop]; omega)
    · rfl

theorem pb_add_of_le (f : List Nat → List Nat → List Nat) (d : Nat) :
    ∀ (n : Nat) (st buf : List Nat), buf.length ≤ n →
      pb f (n + d) st buf = pb f n st buf := by
  induction d with
  | zero => intro n st buf _; rfl
  | succ m ih =>
    intro n st buf hlen
    have h1 : n + (m + 1) = (n + m) + 1 := by omega
    rw [h1, pb_succ_of_le f (n + m) st buf (by omega), ih n st buf hlen]

theorem pb_of_le (f : List Nat → List Nat → List Nat) (n : Nat) (st buf : List Nat)
    (hlen : buf.length ≤ n) : pb f n st buf = processBlocks f st buf := by
  have h1 : n = buf.length + (n - buf.length) := by omega
  rw [processBlocks, h1, pb_add_of_le f (n - buf.length) buf.length st buf (le_refl _)]

/-- One-step unfolding of `processBlocks`. -/
theorem processBlocks_eq (f : List Nat → List Nat → List Nat) (st buf : List Nat) :
    processBlocks f st buf =
      if 64 ≤ buf.length then processBlocks f (f st (buf.take 64)) (buf.drop 64)
      else (st, buf) := by
  by_cases hge : 64 ≤ buf.length
  · obtain ⟨m, hm⟩ : ∃ m, buf.length = m + 1 := ⟨buf.length - 1, by omega⟩
    rw [if_pos hge, processBlocks, hm]
    simp only [pb]
    rw [if_pos (hm ▸ hge)]
    exact pb_of_le f m _ _ (by simp [List.length_drop]; omega)
  · rw [if_neg hge, processBlocks]
    rcases hn : buf.length with _ | m
    · rfl
    · simp only [pb]
      rw [if_neg (hn ▸ hge)]

/-- The buffer left by `processBlocks` is the final `length % 64` bytes. -/
theorem processBlocks_snd (f : List Nat → List Nat → List Nat) :
    ∀ (n : Nat) (st buf : List Nat), buf.length = n →
      (processBlocks f st buf).2 = buf.drop (buf.length - buf.length % 64) := by
  intro n
  induction n using Nat.strong_induction_on with
  | _ n ih =>
    intro st buf hlen
    rw [processBlocks_eq]
    split
    · next hge =>
      have hd : (buf.drop 64).length = n - 64 := by simp [List.length_drop, hlen]
      rw [ih (n - 64) (by omega) _ _ hd, List.drop_drop]
      rw [hd]
      congr 1
      omega
    · next hlt =>
      have h0 : buf.length - buf.length % 64 = 0 := by omega
      rw [h0, List.drop_zero]

/-- Resuming from a midstate is the same as hashing the whole input:
processing more bytes after the fold equals folding the concatenation. -/
theorem processBlocks_resume (f : List Nat → List Nat → List Nat) :
    ∀ (n : Nat) (st buf ex : List Nat), buf.length = n →
      processBlocks f (processBlocks f st buf).1 ((processBlocks f st buf).2 ++ ex) =
        processBlocks f st (buf ++ ex) := by
  intro n
  induction n using Nat.strong_induction_on with
  | _ n ih =>
    intro st buf ex hlen
    by_cases hge : 64 ≤ buf.length
    · rw [processBlocks_eq f st buf, if_pos hge]
      have hd : (buf.drop 64).length = n - 64 := by simp [List.length_drop, hlen]
      rw [ih (n - 64) (by omega) _ _ ex hd]
      rw [processBlocks_eq f st (buf ++ ex), if_pos (by simp [List.length_append]; omega)]
      rw [List.take_append_of_le_length hge, List.drop_append_of_le_length hge]
    · rw [processBlocks_eq f st buf, if_neg hge]

theorem hsUpdate_append (f : List Nat → List Nat → List Nat) (hs : HashState)
    (a b : List Nat) : hsUpdate f (hsUpdate f hs a) b = hsUpdate f hs (a ++ b) := by
  simp only [hsUpdate]
  refine HashState.mk.injEq .. |>.mpr ⟨?_, ?_, by simp [List.length_append]; ring⟩
  · rw [processBlocks_resume f (hs.buf ++ a).length hs.state (hs.buf ++ a) b rfl,
      List.append_assoc]
  · rw [processBlocks_resume f (hs.buf ++ a).length hs.state (hs.buf ++ a) b rfl,
      List.append_assoc]

theorem hsUpdate_hsInit_buf (f : List Nat → List Nat → List Nat) (iv p : List Nat) :
    (hsUpdate f (hsInit iv) p).buf = p.drop (p.length - p.length % 64) := by
  show (processBlocks f iv ([] ++ p)).2 = _
  rw [List.nil_append]
  exact processBlocks_snd f p.length iv p rfl

theorem hsUpdate_hsInit_buf_length (f : List Nat → List Nat → List Nat) (iv p : List Nat) :
    (hsUpdate f (hsInit iv) p).buf.length = p.length % 64 := by
  rw [hsUpdate_hsInit_buf, List.length_drop]
  omega

theorem hsUpdate_hsInit_length (f : List Nat → List Nat → List Nat) (iv p : List Nat) :
    (hsUpdate f (hsInit iv) p).length = 8 * p.length := by
  show 0 + 8 * p.length = 8 * p.length
  omega

/-- Evaluation lemma for `check_hash_link` when both guards hold. -/
theorem check_hash_link_eval (f : List Nat → List Nat → List Nat) (iv : List Nat)
    (st ed : List Nat) (n : Nat) (data ce : List Nat)
    (h1 : ed.length = n % 64 - ce.length)
    (h2 : ((ed ++ ce).drop (ed.length + ce.length - n % 64)).length = n % 64) :
    check_hash_link f iv ⟨st, ed, n⟩ data ce =
      some (bytesToNatLE (shaRun f iv (hsDigest f (hsUpdate f
        ⟨st, (ed ++ ce).drop (ed.length + ce.length - n % 64), 8 * n⟩ data)))) := by
  rw [check_hash_link]
  exact if_pos h1 |>.trans (if_pos h2)

/-- **C3.** For every byte string `p` ending in `const_ending` and every byte
string `data`, `check_hash_link (prefix_to_hash_link p ce) data ce` succeeds
and returns exactly the double SHA-256 of `p ++ data` as a 256-bit integer:
the hash link faithfully commits to the prefix and completes to the digest of
the full serialized bytes.  Stated for an arbitrary compression function `f`
and initial state `iv`, hence in particular for SHA-256's. -/
theorem hash_link_roundtrip (f : List Nat → List Nat → List Nat) (iv p ce data : List Nat)
    (h : ce <:+ p) :
    (pfx_to_hash_link f iv p ce).bind (fun hl => check_hash_link f iv hl data ce) =
      some (hash256int f iv (p ++ data)) := by
  have hsuf : ce.isSuffixOf p := List.isSuffixOf_iff_suffix.mpr h
  have hCP : ce.length ≤ p.length := h.length_le
  set x := hsUpdate f (hsInit iv) p with hx
  have hxlen : x.length = 8 * p.length := hsUpdate_hsInit_length f iv p
  have hbuf : x.buf = p.drop (p.length - p.length % 64) := hsUpdate_hsInit_buf f iv p
  have hblen : x.buf.length = p.length % 64 := hsUpdate_hsInit_buf_length f iv p
  have hLP : p.length % 64 ≤ p.length := Nat.mod_le _ _
  have hce : ce = p.drop (p.length - ce.length) := List.suffix_iff_eq_drop.mp h
  have hhllen : x.length / 8 = p.length := by rw [hxlen]; omega
  obtain ⟨c, hc⟩ : ∃ c, ce.length = c := ⟨_, rfl⟩
  have hedlen : (x.buf.take (x.buf.length - ce.length)).length =
      p.length % 64 - ce.length := by
    rw [List.length_take, hblen]
    omega
  have hkey : (x.buf.take (x.buf.length - ce.length) ++ ce).drop
      ((x.buf.take (x.buf.length - ce.length)).length + ce.length - p.length % 64) =
      x.buf := by
    have htl : (x.buf.take (x.buf.length - c)).length = x.buf.length - c := by
      rw [List.length_take]
      omega
    rw [hc, htl]
    by_cases hCL : c ≤ p.length % 64
    · have hdce : x.buf.drop (x.buf.length - c) = ce := by
        rw [hblen, hbuf, List.drop_drop]
        conv_rhs => rw [hce, hc]
        congr 1
        omega
      have hamt : x.buf.length - c + c - p.length % 64 = 0 := by omega
      rw [hamt, List.drop_zero]
      obtain ⟨k, hk⟩ : ∃ k, x.buf.length - c = k := ⟨_, rfl⟩
      rw [hk] at hdce ⊢
      rw [← hdce]
      exact List.take_append_drop k x.buf
    · have htl0 : x.buf.length - c = 0 := by omega
      rw [htl0, List.take_zero, List.nil_append, Nat.zero_add]
      conv_lhs => rw [hce, hc]
      rw [List.drop_drop, hbuf]
      congr 1
      omega
  have h2 : ((x.buf.take (x.buf.length - ce.length) ++ ce).drop
      ((x.buf.take (x.buf.length - ce.length)).length + ce.length - p.length % 64)).length =
      p.length % 64 := by
    rw [hkey, hblen]
  rw [pfx_to_hash_link, if_pos hsuf, Option.some_bind, ← hx, hhllen]
  rw [check_hash_link_eval f iv x.state _ p.length data ce hedlen h2, hkey]
  have hstate : (⟨x.state, x.buf, 8 * p.length⟩ : HashState) = x := by
    rw [← hxlen]
  rw [hstate, hx, hsUpdate_append]
  rfl

/-- Witness for C3: the round trip at a concrete one-byte prefix equal to the
constant ending, evaluated with a concrete compression function. -/
theorem hash_link_roundtrip_witness :
    (pfx_to_hash_link cf civ [7] [7]).bind (fun hl => check_hash_link cf civ hl [] [7]) =
      some (hash256int cf civ ([7] ++ [])) :=
  hash_link_roundtrip cf civ [7] [7] [] (by decide)

/-! ### Construction-time invariants -/

/-- Inversion for a successful V9 construction. -/
theorem newnewshare_ok_inv (f : List Nat → List Nat → List Nat) (iv : List Nat)
    (E : Ext) (net : Net) (peer : Option Nat) (c : Contents9) (s : ShareObjNew)
    (h : NewNewShare.init f iv E net peer c = .ok s) :
    s.share_info = c.share_info ∧ s.target = c.share_info.bits ∧
      s.pow_hash ≤ s.target ∧ s.target ≤ net.MAX_TARGET ∧
      (∀ x ∈ c.share_info.transaction_hash_refs, x.share_count < 110) ∧
      (∀ i < c.share_info.new_transaction_hashes.length,
        (⟨0, i⟩ : TxRef) ∈ c.share_info.transaction_hash_refs) := by
  unfold NewNewShare.init at h
  split at h
  · exact absurd h (by simp)
  next h1 =>
  split at h
  · exact absurd h (by simp)
  next h2 =>
  split at h
  · exact absurd h (by simp)
  next h3 =>
  split at h
  · exact absurd h (by simp)
  next h4 =>
  split at h
  · exact absurd h (by simp)
  next h5 =>
  split at h
  · exact absurd h (by simp)
  next gh hm =>
  split at h
  · exact absurd h (by simp)
  next h6 =>
  split at h
  · exact absurd h (by simp)
  next h7 =>
  rw [Except.ok.injEq] at h
  subst h
  refine ⟨rfl, rfl, Nat.le_of_not_lt h7, Nat.le_of_not_lt h6, ?_, ?_⟩
  · intro x hx
    have h4' := not_not.mp h4
    rw [List.all_eq_true] at h4'
    simpa using h4' x hx
  · intro i hi
    have h5' := not_not.mp h5
    rw [List.all_eq_true] at h5'
    have hc := h5' i (List.mem_range.mpr hi)
    simpa using hc

/-- Inversion for a successful V8 construction. -/
theorem newshare_ok_inv (f : List Nat → List Nat → List Nat) (iv : List Nat)
    (E : Ext) (net : Net) (peer : Option Nat) (c : Contents8) (s : ShareObjNew)
    (h : NewShare.init f iv E net peer c = .ok s) :
    s.share_info = c.share_info ∧ s.target = c.share_info.bits ∧
      s.pow_hash ≤ s.target ∧ s.target ≤ net.MAX_TARGET ∧
      (∀ x ∈ c.share_info.transaction_hash_refs, x.share_count < 110) ∧
      (∀ i < c.share_info.new_transaction_hashes.length,
        (⟨0, i⟩ : TxRef) ∈ c.share_info.transaction_hash_refs) := by
  unfold NewShare.init at h
  split at h
  · exact absurd h (by simp)
  next h1 =>
  split at h
  · exact absurd h (by simp)
  next h2 =>
  split at h
  · exact absurd h (by simp)
  next h3 =>
  split at h
  · exact absurd h (by simp)
  next h4 =>
  split at h
  · exact absurd h (by simp)
  next h5 =>
  split at h
  · exact absurd h (by simp)
  next gh hm =>
  split at h
  · exact absurd h (by simp)
  next h6 =>
  split at h
  · exact absurd h (by simp)
  next h7 =>
  rw [Except.ok.injEq] at h
  subst h
  refine ⟨rfl, rfl, Nat.le_of_not_lt h7, Nat.le_of_not_lt h6, ?_, ?_⟩
  · intro x hx
    have h4' := not_not.mp h4
    rw [List.all_eq_true] at h4'
    simpa using h4' x hx
  · intro i hi
    have h5' := not_not.mp h5
    rw [List.all_eq_true] at h5'
    have hc := h5' i (List.mem_range.mpr hi)
    simpa using hc

/-- Inversion for a successful V7 construction. -/
theorem share_ok_inv (f : List Nat → List Nat → List Nat) (iv : List Nat)
    (E : Ext) (dbg : Bool) (net : Net) (peer : Option Nat) (common : Common7)
    (merkle_link : MerkleLink) (other_txs : Option (List Nat)) (s : ShareObj7)
    (h : Share.init f iv E dbg net peer common merkle_link other_txs = .ok s) :
    s.share_info = common.share_info ∧ s.target = common.share_info.bits ∧
      s.pow_hash ≤ s.target ∧ s.other_txs = other_txs := by
  unfold Share.init at h
  split at h
  · exact absurd h (by simp)
  next h1 =>
  split at h
  · exact absurd h (by simp)
  next h2 =>
  split at h
  · exact absurd h (by simp)
  next h3 =>
  split at h
  · exact absurd h (by simp)
  next h4 =>
  split at h
  · exact absurd h (by simp)
  next gh hm =>
  split at h
  · exact absurd h (by simp)
  next h5 =>
  split at h
  · exact absurd h (by simp)
  next h6 =>
  split at h
  · exact absurd h (by simp)
  next h7 =>
  rw [Except.ok.injEq] at h
  subst h
  exact ⟨rfl, rfl, Nat.le_of_not_lt h5, rfl⟩

/-- **C5.** Constructing a share of any version succeeds only if the
proof-of-work hash of the reconstructed header is at most the share's own
target; and when every earlier validation step passes but `pow_hash > target`,
the constructor raises `PeerMisbehaving` (PoW invalid).  Hence every share
object that exists satisfies `pow_hash ≤ target`. -/
theorem construction_pow_le_target :
    (∀ f iv E net peer c s, NewNewShare.init f iv E net peer c = .ok s →
      s.pow_hash ≤ s.target) ∧
    (∀ f iv E net peer c s, NewShare.init f iv E net peer c = .ok s →
      s.pow_hash ≤ s.target) ∧
    (∀ f iv E dbg net peer common ml otxs s,
      Share.init f iv E dbg net peer common ml otxs = .ok s →
      s.pow_hash ≤ s.target) ∧
    (∀ f iv E net peer (c : Contents9) gh,
      2 ≤ c.share_info.share_data.coinbase.length →
      c.share_info.share_data.coinbase.length ≤ 100 →
      c.merkle_link.branch.length ≤ 16 →
      c.hash_link.extra_data = [] →
      (c.share_info.transaction_hash_refs.all (fun x => x.share_count < 110)) = true →
      ((List.range c.share_info.new_transaction_hashes.length).all
        (fun i => c.share_info.transaction_hash_refs.contains ⟨0, i⟩)) = true →
      check_hash_link f iv c.hash_link
        (E.refHashNew net.IDENTIFIER c.share_info c.ref_merkle_link ++
          natToBytesLE 4 c.last_txout_nonce ++ natToBytesLE 4 0)
        gentx_before_refhash_new = some gh →
      c.share_info.bits ≤ net.MAX_TARGET →
      c.share_info.bits < E.pow ⟨c.min_header, E.checkMerkleLink gh c.merkle_link⟩ →
      NewNewShare.init f iv E net peer c = .error (.peerMisbehaving .powInvalid)) ∧
    (∀ f iv E net peer (c : Contents8) gh,
      2 ≤ c.share_info.share_data.coinbase.length →
      c.share_info.share_data.coinbase.length ≤ 100 →
      c.merkle_link.branch.length ≤ 16 →
      c.hash_link.extra_data = [] →
      (c.share_info.transaction_hash_refs.all (fun x => x.share_count < 110)) = true →
      ((List.range c.share_info.new_transaction_hashes.length).all
        (fun i => c.share_info.transaction_hash_refs.contains ⟨0, i⟩)) = true →
      check_hash_link f iv c.hash_link
        (E.refHashNew net.IDENTIFIER c.share_info c.ref_merkle_link ++ natToBytesLE 4 0)
        gentx_before_refhash_old = some gh →
      c.share_info.bits ≤ net.MAX_TARGET →
      c.share_info.bits < E.pow ⟨c.min_header, E.checkMerkleLink gh c.merkle_link⟩ →
      NewShare.init f iv E net peer c = .error (.peerMisbehaving .powInvalid)) ∧
    (∀ f iv E net peer (common : Common7) ml otxs gh,
      common.share_info.share_data.coinbase.length ≤ 100 →
      ml.branch.length ≤ 16 →
      common.hash_link.extra_data = [] →
      check_hash_link f iv common.hash_link
        (E.refHash7 net.IDENTIFIER common.share_info common.ref_merkle_link ++
          natToBytesLE 4 0)
        gentx_before_refhash_old = some gh →
      common.share_info.bits < E.pow ⟨common.min_header, E.checkMerkleLink gh ml⟩ →
      Share.init f iv E false net peer common ml otxs =
        .error (.peerMisbehaving .powInvalid)) := by
  refine ⟨?_, ?_, ?_, ?_, ?_, ?_⟩
  · intro f iv E net peer c s h
    exact (newnewshare_ok_inv f iv E net peer c s h).2.2.1
  · intro f iv E net peer c s h
    exact (newshare_ok_inv f iv E net peer c s h).2.2.1
  · intro f iv E dbg net peer common ml otxs s h
    exact (share_ok_inv f iv E dbg net peer common ml otxs s h).2.2.1
  · intro f iv E net peer c gh hcb1 hcb2 hbr hed h4 h5 hchl hmax hpow
    unfold NewNewShare.init
    rw [if_neg (not_not_intro ⟨hcb1, hcb2⟩), if_neg (not_lt.mpr hbr),
      if_neg (not_not_intro hed), if_neg (not_not_intro h4), if_neg (not_not_intro h5)]
    simp only [hchl]
    rw [if_neg (not_lt.mpr hmax), if_pos hpow]
  · intro f iv E net peer c gh hcb1 hcb2 hbr hed h4 h5 hchl hmax hpow
    unfold NewShare.init
    rw [if_neg (not_not_intro ⟨hcb1, hcb2⟩), if_neg (not_lt.mpr hbr),
      if_neg (not_not_intro hed), if_neg (not_not_intro h4), if_neg (not_not_intro h5)]
    simp only [hchl]
    rw [if_neg (not_lt.mpr hmax), if_pos hpow]
  · intro f iv E net peer common ml otxs gh hcb hbr hed hchl hpow
    unfold Share.init
    rw [if_neg (not_lt.mpr hcb), if_neg (not_lt.mpr hbr),
      if_neg (by simp), if_neg (not_not_intro hed)]
    simp only [hchl]
    rw [if_pos hpow]

/-- Witness for C5: a concrete V9 construction succeeds with
`pow_hash ≤ target`, and with a too-large proof-of-work hash the same
contents are rejected as `PeerMisbehaving` (PoW invalid). -/
theorem construction_pow_le_target_witness :
    cS9.pow_hash ≤ cS9.target ∧
    NewNewShare.init cf civ cExtHigh cNet none cC9 =
      .error (.peerMisbehaving .powInvalid) :=
  ⟨construction_pow_le_target.1 cf civ cExt cNet none cC9 cS9 rfl,
   construction_pow_le_target.2.2.2.1 cf civ cExtHigh cNet none cC9 0
     (by decide) (by decide) (by decide) (by decide) (by decide) (by decide)
     (by decide) (by decide) (by decide)⟩

/-- **C9.** Every successfully constructed V8 or V9 share satisfies: each
`transaction_hash_refs` entry has `share_count < 110`, and every index into
`new_transaction_hashes` is referenced by `(share_count 0, tx_count i)` in
`transaction_hash_refs`; the constructor's asserts fail otherwise. -/
theorem newshare_refs_invariant :
    (∀ f iv E net peer c s, NewNewShare.init f iv E net peer c = .ok s →
      (∀ x ∈ s.share_info.transaction_hash_refs, x.share_count < 110) ∧
      (∀ i < s.share_info.new_transaction_hashes.length,
        (⟨0, i⟩ : TxRef) ∈ s.share_info.transaction_hash_refs)) ∧
    (∀ f iv E net peer c s, NewShare.init f iv E net peer c = .ok s →
      (∀ x ∈ s.share_info.transaction_hash_refs, x.share_count < 110) ∧
      (∀ i < s.share_info.new_transaction_hashes.length,
        (⟨0, i⟩ : TxRef) ∈ s.share_info.transaction_hash_refs)) := by
  constructor
  · intro f iv E net peer c s h
    obtain ⟨hsi, -, -, -, h110, href⟩ := newnewshare_ok_inv f iv E net peer c s h
    rw [hsi]
    exact ⟨h110, href⟩
  · intro f iv E net peer c s h
    obtain ⟨hsi, -, -, -, h110, href⟩ := newshare_ok_inv f iv E net peer c s h
    rw [hsi]
    exact ⟨h110, href⟩

/-- Witness for C9: both invariants hold of a concretely constructed V9 and
V8 share. -/
theorem newshare_refs_invariant_witness :
    ((∀ x ∈ cS9.share_info.transaction_hash_refs, x.share_count < 110) ∧
      (∀ i < cS9.share_info.new_transaction_hashes.length,
        (⟨0, i⟩ : TxRef) ∈ cS9.share_info.transaction_hash_refs)) ∧
    ((∀ x ∈ cS9.share_info.transaction_hash_refs, x.share_count < 110) ∧
      (∀ i < cS9.share_info.new_transaction_hashes.length,
        (⟨0, i⟩ : TxRef) ∈ cS9.share_info.transaction_hash_refs)) :=
  ⟨newshare_refs_invariant.1 cf civ cExt cNet none cC9 cS9 rfl,
   newshare_refs_invariant.2 cf civ cExt cNet none cC8 cS9 rfl⟩

/-! ### `load_share` dispatch -/

/-- Counterexample to C7 as stated: at the concrete unknown type 6, the source
raises `ValueError`, not `PeerMisbehavingError`. -/
theorem load_share_unknown_cx :
    load_share cf civ cExt cParsers false cNet none ⟨6, []⟩ =
      .error (.valueError .unknownType) ∧
    (ShareError.valueError .unknownType).isPeerM = false :=
  ⟨rfl, rfl⟩

/-- **C7 (amended).** `load_share` raises `PeerMisbehaving` for types 0-3
(obsolete) and `ValueError` for every type outside `{0,1,2,3,4,5,8,9}`
(unknown type); when it succeeds, type 4 yields a V7 share without inline
transactions, type 5 a V7 share with inline transactions, type 8 a V8 share
and type 9 a V9 share. -/
theorem load_share_dispatch (f : List Nat → List Nat → List Nat) (iv : List Nat)
    (E : Ext) (P : Parsers) (dbg : Bool) (net : Net) (peer : Option Nat)
    (env : Envelope) :
    ((env.ty = 0 ∨ env.ty = 1 ∨ env.ty = 2 ∨ env.ty = 3) →
      load_share f iv E P dbg net peer env = .error (.peerMisbehaving .obsoleteShare)) ∧
    (env.ty ∉ ([0, 1, 2, 3, 4, 5, 8, 9] : List Nat) →
      load_share f iv E P dbg net peer env = .error (.valueError .unknownType)) ∧
    (env.ty = 4 → ∀ l, load_share f iv E P dbg net peer env = .ok l →
      ∃ s, l = .v7 s ∧ s.other_txs = none) ∧
    (env.ty = 5 → ∀ l, load_share f iv E P dbg net peer env = .ok l →
      ∃ s, l = .v7 s ∧ s.other_txs.isSome) ∧
    (env.ty = 8 → ∀ l, load_share f iv E P dbg net peer env = .ok l →
      ∃ s, l = .v8 s) ∧
    (env.ty = 9 → ∀ l, load_share f iv E P dbg net peer env = .ok l →
      ∃ s, l = .v9 s) := by
  refine ⟨?_, ?_, ?_, ?_, ?_, ?_⟩
  · intro h
    rw [load_share, if_pos h]
  · intro h
    simp only [List.mem_cons, List.not_mem_nil, or_false, not_or] at h
    obtain ⟨h0, h1, h2, h3, h4, h5, h8, h9⟩ := h
    rw [load_share, if_neg (by tauto), if_neg h4, if_neg h5, if_neg h8, if_neg h9]
  · intro h4 l hl
    rw [load_share, if_neg (by simp [h4]), if_pos h4] at hl
    rcases hp : P.parse1a env.contents with _ | ⟨common, ml⟩ <;> rw [hp] at hl
    · exact absurd hl (by simp)
    · rcases hi : Share.init f iv E dbg net peer common ml none with e | s <;>
        simp only [hi, Except.map] at hl
      · exact absurd hl (by simp)
      · rw [Except.ok.injEq] at hl
        exact ⟨s, hl.symm,
          (share_ok_inv f iv E dbg net peer common ml none s hi).2.2.2⟩
  · intro h5 l hl
    rw [load_share, if_neg (by simp [h5]), if_neg (by simp [h5]), if_pos h5] at hl
    rcases hp : P.parse1b env.contents with _ | ⟨common, otxs⟩ <;> rw [hp] at hl
    · exact absurd hl (by simp)
    · rcases hi : Share.init f iv E dbg net peer common
          (E.calcMerkleLink (0 :: otxs.map E.txHash)) (some otxs) with e | s <;>
        simp only [hi, Except.map] at hl
      · exact absurd hl (by simp)
      · rw [Except.ok.injEq] at hl
        refine ⟨s, hl.symm, ?_⟩
        rw [(share_ok_inv f iv E dbg net peer common
          (E.calcMerkleLink (0 :: otxs.map E.txHash)) (some otxs) s hi).2.2.2]
        rfl
  · intro h8 l hl
    rw [load_share, if_neg (by simp [h8]), if_neg (by simp [h8]), if_neg (by simp [h8]),
      if_pos h8] at hl
    rcases hp : P.parse8 env.contents with _ | c <;> rw [hp] at hl
    · exact absurd hl (by simp)
    · rcases hi : NewShare.init f iv E net peer c with e | s <;>
        simp only [hi, Except.map] at hl
      · exact absurd hl (by simp)
      · rw [Except.ok.injEq] at hl
        exact ⟨s, hl.symm⟩
  · intro h9 l hl
    rw [load_share, if_neg (by simp [h9]), if_neg (by simp [h9]), if_neg (by simp [h9]),
      if_neg (by simp [h9]), if_pos h9] at hl
    rcases hp : P.parse9 env.contents with _ | c <;> rw [hp] at hl
    · exact absurd hl (by simp)
    · rcases hi : NewNewShare.init f iv E net peer c with e | s <;>
        simp only [hi, Except.map] at hl
      · exact absurd hl (by simp)
      · rw [Except.ok.injEq] at hl
        exact ⟨s, hl.symm⟩

/-- Witness for C7: the dispatch theorem applied at concrete envelopes of
type 0 (obsolete) and type 10 (unknown). -/
theorem load_share_dispatch_witness :
    load_share cf civ cExt cParsers false cNet none ⟨0, []⟩ =
      .error (.peerMisbehaving .obsoleteShare) ∧
    load_share cf civ cExt cParsers false cNet none ⟨10, []⟩ =
      .error (.valueError .unknownType) :=
  ⟨(load_share_dispatch cf civ cExt cParsers false cNet none ⟨0, []⟩).1 (Or.inl rfl),
   (load_share_dispatch cf civ cExt cParsers false cNet none ⟨10, []⟩).2.1 (by decide)⟩

/-! ### Timestamp clamp -/

/-- **C8.** With a previous share, the generated timestamp is the desired
timestamp clamped to the closed interval
`[previous.timestamp + 1, previous.timestamp + 2*SHARE_PERIOD - 1]`
(equivalently `previous.timestamp + SHARE_PERIOD ± (SHARE_PERIOD - 1)`):
it stays in the interval, equals the desired value whenever that value
already lies in the interval, and snaps to the nearer endpoint otherwise;
with no previous share it is the desired timestamp unchanged. -/
theorem timestamp_clamped (p P d : Int) (hP : 1 ≤ P) :
    (p + 1 ≤ generate_timestamp (some p) P d ∧
      generate_timestamp (some p) P d ≤ p + 2 * P - 1) ∧
    (p + 1 ≤ d → d ≤ p + 2 * P - 1 → generate_timestamp (some p) P d = d) ∧
    (d < p + 1 → generate_timestamp (some p) P d = p + 1) ∧
    (p + 2 * P - 1 < d → generate_timestamp (some p) P d = p + 2 * P - 1) ∧
    (∀ d' : Int, generate_timestamp none P d' = d') := by
  have hlo : (p + P) - (P - 1) = p + 1 := by ring
  have hhi : (p + P) + (P - 1) = p + 2 * P - 1 := by ring
  refine ⟨?_, ?_, ?_, ?_, fun d' => rfl⟩ <;>
    simp only [generate_timestamp, clip, hlo, hhi]
  · split_ifs with h1 h2 <;> omega
  · intro hd1 hd2
    split_ifs with h1 h2 <;> omega
  · intro hd
    split_ifs with h1 h2 <;> omega
  · intro hd
    split_ifs with h1 h2 <;> omega

/-- Witness for C8: a desired timestamp above the window snaps to the upper
endpoint and a desired timestamp inside the window is kept. -/
theorem timestamp_clamped_witness :
    generate_timestamp (some 100) 10 200 = 119 ∧
    generate_timestamp (some 100) 10 105 = 105 :=
  ⟨(timestamp_clamped 100 10 200 (by decide)).2.2.2.1 (by decide),
   (timestamp_clamped 100 10 105 (by decide)).2.1 (by decide) (by decide)⟩

/-! ### Successor gate -/

/-- **C4.** The succession gate at the head of `check`: a same-type parent
always passes; when the parent's type declares this share's type as its
`SUCCESSOR`, the gate passes exactly when the chain depth is at least
`CHAIN_LENGTH` and the work-weighted vote for this version over the sampled
window reaches the `85//100` threshold (it raises `PeerMisbehaving` with
"switch without enough history" or "... hash power upgraded" otherwise); any
other parent type raises `PeerMisbehaving` ("can't follow"). -/
theorem version_switch_check_cases (selfT prevT : ShTy) (h CL : Nat)
    (window : List VoteShare) :
    (version_switch_check selfT prevT h CL window = .ok () ↔
      prevT = selfT ∨ (SUCCESSOR_of prevT = some selfT ∧ CL ≤ h ∧
        countsSum (get_desired_version_counts window) * 85 / 100 ≤
          countsGet (get_desired_version_counts window) (VERSION_of selfT))) ∧
    (prevT ≠ selfT → SUCCESSOR_of prevT ≠ some selfT →
      version_switch_check selfT prevT h CL window =
        .error (.peerMisbehaving .cantFollow)) ∧
    (prevT ≠ selfT → SUCCESSOR_of prevT = some selfT → h < CL →
      version_switch_check selfT prevT h CL window =
        .error (.peerMisbehaving .switchHistory)) ∧
    (prevT ≠ selfT → SUCCESSOR_of prevT = some selfT → CL ≤ h →
      countsGet (get_desired_version_counts window) (VERSION_of selfT) <
        countsSum (get_desired_version_counts window) * 85 / 100 →
      version_switch_check selfT prevT h CL window =
        .error (.peerMisbehaving .switchHashPower)) := by
  refine ⟨?_, ?_, ?_, ?_⟩
  · unfold version_switch_check
    split_ifs with h1 h2 h3 h4 <;> simp_all <;> omega
  · intro h1 h2
    unfold version_switch_check
    rw [if_neg h1, if_neg h2]
  · intro h1 h2 h3
    unfold version_switch_check
    rw [if_neg h1, if_pos h2, if_pos h3]
  · intro h1 h2 h3 h4
    unfold version_switch_check
    rw [if_neg h1, if_pos h2, if_neg (Nat.not_lt.mpr h3), if_pos h4]

/-- A vote window with `k` unit-work votes for version 9 and `10 - k` for
version 7. -/
def c4window (k : Nat) : List VoteShare :=
  List.replicate k ⟨9, 2 ^ 256 - 1⟩ ++ List.replicate (10 - k) ⟨7, 2 ^ 256 - 1⟩

/-- Witness for C4: with depth 100 = CHAIN_LENGTH, a 9-of-10 vote lets a V9
share follow a V7 share; a 7-of-10 vote is rejected for lack of upgraded hash
power; depth 50 is rejected for lack of history; a V7 share can never follow
a V9 share. -/
theorem version_switch_check_cases_witness :
    version_switch_check .v9 .v7 100 100 (c4window 9) = .ok () ∧
    version_switch_check .v9 .v7 100 100 (c4window 7) =
      .error (.peerMisbehaving .switchHashPower) ∧
    version_switch_check .v9 .v7 50 100 (c4window 9) =
      .error (.peerMisbehaving .switchHistory) ∧
    version_switch_check .v7 .v9 100 100 (c4window 9) =
      .error (.peerMisbehaving .cantFollow) :=
  ⟨(version_switch_check_cases .v9 .v7 100 100 (c4window 9)).1.mpr
      (Or.inr ⟨rfl, by decide, by decide⟩),
   (version_switch_check_cases .v9 .v7 100 100 (c4window 7)).2.2.2
      (by decide) rfl (by decide) (by decide),
   (version_switch_check_cases .v9 .v7 50 100 (c4window 9)).2.2.1
      (by decide) rfl (by decide),
   (version_switch_check_cases .v7 .v9 100 100 (c4window 9)).2.1
      (by decide) (by decide)⟩

/-! ### Weights skiplist -/

/-- **C6.** When the accumulated total would overshoot `desired_weight` and
the next delta covers exactly one share, `apply_delta` truncates that share's
contribution so the returned total is exactly `desired_weight`, with the
truncated per-script weight `(desired - total_so_far)//65535 * w //
(delta_total//65535)`; in particular the query over a chain of 10 shares of
weight 65535 each with `desired_weight = 5*65535` consumes exactly 5 shares
and returns total weight 327675. -/
theorem weights_truncation :
    (∀ (sol : WSol) (ms dw : Nat) (d : WDelta) (scr w : Nat),
      d.share_count = 1 → d.weights = [(scr, w)] →
      dw < sol.total + d.total →
      (dw - sol.total) % 65535 = 0 →
      apply_delta sol d ms dw =
        some ⟨sol.share_count + 1,
          [(scr, (dw - sol.total) / 65535 * w / (d.total / 65535))] :: sol.weights_list,
          dw,
          sol.donation + (dw - sol.total) / 65535 * d.donation / (d.total / 65535)⟩) ∧
    (get_cumulative_weights c6chain 10 (5 * 65535)).map
      (fun sol => (sol.share_count, sol.total)) = some (5, 327675) := by
  constructor
  · intro sol ms dw d scr w hc hw hover hmod
    unfold apply_delta
    rw [if_pos ⟨hover, hc⟩, if_pos hmod]
    simp only [hw, hc]
  · decide

/-- Witness for C6: a third share of weight `4*65535` overshooting a
`5*65535` budget at accumulated weight `2*65535` is truncated to total
exactly `5*65535`, its script weight scaled by `3/4`. -/
theorem weights_truncation_witness :
    apply_delta ⟨2, [], 131070, 0⟩ ⟨1, [(5, 100)], 262140, 0⟩ 10 327675 =
      some ⟨3, [[(5, 75)]], 327675, 0⟩ :=
  weights_truncation.1 ⟨2, [], 131070, 0⟩ 10 327675 ⟨1, [(5, 100)], 262140, 0⟩ 5 100
    rfl rfl (by decide) (by decide)

/-! ### `think` request filtering -/

/-- Counterexample to C1 as stated: a concrete `desired` entry whose target
exceeds the target cutoff but whose timestamp passes the timestamp cutoff is
returned by the source (line 1055 filters on the timestamp only), while the
claim's description excludes it. -/
theorem think_requests_cx :
    think_requests 1000000 (some 1000000) (some 1) 10
        [⟨none, 1, 1000000, 2 ^ 256 - 1⟩] ≠
      think_requests_claim 1000000 (some 1000000) (some 1) 10
        [⟨none, 1, 1000000, 2 ^ 256 - 1⟩] := by
  decide

/-- **C1 (amended).** The want-request list `think` returns contains exactly
the desired entries whose timestamp is at least the timestamp cutoff
(`min(now, best.timestamp) - 3600` with a best head, `now - 86400` without);
the target cutoff is computed but not applied to the filter. -/
theorem think_requests_eq (now b : Int) (rate : Option Nat) (P : Nat)
    (desired : List DesiredEntry) :
    think_requests now (some b) rate P desired =
      (desired.filter (fun e => decide (min now b - 3600 ≤ e.ts))).map
        (fun e => (e.peer, e.hash)) ∧
    think_requests now none rate P desired =
      (desired.filter (fun e => decide (now - 86400 ≤ e.ts))).map
        (fun e => (e.peer, e.hash)) := by
  constructor
  · rfl
  · show (desired.filter (fun e =>
      decide (now - 24 * 60 * 60 ≤ e.ts))).map (fun e => (e.peer, e.hash)) = _
    norm_num

/-! ### Association-list (Python dict) lemmas -/

theorem dictGet_cons (p : Nat × Int) (m : List (Nat × Int)) (k : Nat) :
    dictGet (p :: m) k = if p.1 = k then p.2 else dictGet m k := by
  by_cases h : p.1 = k <;> simp [dictGet, List.find?_cons, h]

theorem dictGet_nonneg (m : List (Nat × Int)) (k : Nat) (h : ∀ q ∈ m, 0 ≤ q.2) :
    0 ≤ dictGet m k := by
  rcases hf : m.find? (fun p => p.1 == k) with _ | q
  · simp [dictGet, hf]
  · have := h q (List.mem_of_find?_eq_some hf)
    simp [dictGet, hf, this]

theorem dictGet_eq_zero_of_not_any (m : List (Nat × Int)) (k : Nat)
    (hany : ¬(m.any (fun p => p.1 == k)) = true) : dictGet m k = 0 := by
  rcases hf : m.find? (fun p => p.1 == k) with _ | q
  · simp [dictGet, hf]
  · exact absurd
      (List.any_eq_true.mpr ⟨q, List.mem_of_find?_eq_some hf, List.find?_some hf⟩) hany

/-- Replacing key `k` in a list without key `k` changes nothing. -/
theorem mapReplace_eq_self (rest : List (Nat × Int)) (k : Nat) (v : Int)
    (h : ∀ q ∈ rest, q.1 ≠ k) :
    rest.map (fun p => if p.1 == k then (k, v) else p) = rest := by
  induction rest with
  | nil => rfl
  | cons p t ih =>
    rw [List.map_cons, if_neg (by simpa using h p (List.mem_cons_self p t)),
      ih (fun q hq => h q (List.mem_cons_of_mem p hq))]

theorem mem_dictSet (m : List (Nat × Int)) (k : Nat) (v : Int) (q : Nat × Int)
    (h : q ∈ dictSet m k v) : q = (k, v) ∨ (q ∈ m ∧ q.1 ≠ k) := by
  unfold dictSet at h
  split at h
  · next hany =>
    rw [List.mem_map] at h
    obtain ⟨p, hp, hpq⟩ := h
    by_cases hk : p.1 = k
    · left
      rw [← hpq]
      simp [hk]
    · right
      rw [← hpq, if_neg (by simpa using hk)]
      exact ⟨hp, hk⟩
  · next hany =>
    rw [List.mem_append, List.mem_singleton] at h
    rcases h with h | h
    · right
      refine ⟨h, ?_⟩
      intro hk
      rw [List.any_eq_true] at hany
      exact absurd ⟨q, h, by simpa using hk⟩ hany
    · exact Or.inl h

theorem self_mem_keys_dictSet (m : List (Nat × Int)) (k : Nat) (v : Int) :
    k ∈ (dictSet m k v).map Prod.fst := by
  unfold dictSet
  split
  · next hany =>
    rw [List.any_eq_true] at hany
    obtain ⟨p, hp, hpk⟩ := hany
    rw [List.mem_map]
    refine ⟨(k, v), ?_, rfl⟩
    rw [List.mem_map]
    exact ⟨p, hp, by rw [if_pos hpk]⟩
  · rw [List.map_append, List.mem_append]
    right
    simp

theorem keys_dictSet (m : List (Nat × Int)) (k : Nat) (v : Int) (a : Nat)
    (h : a ∈ (dictSet m k v).map Prod.fst) : a = k ∨ a ∈ m.map Prod.fst := by
  rw [List.mem_map] at h
  obtain ⟨q, hq, hqa⟩ := h
  rcases mem_dictSet m k v q hq with h | ⟨h, -⟩
  · left
    rw [← hqa, h]
  · right
    rw [← hqa]
    exact List.mem_map_of_mem Prod.fst h

theorem keys_mapReplace (m : List (Nat × Int)) (k : Nat) (v : Int) :
    List.map Prod.fst (m.map (fun p => if p.1 == k then (k, v) else p)) =
      m.map Prod.fst := by
  rw [List.map_map]
  apply List.map_congr_left
  intro p _
  by_cases hk : p.1 = k
  · simp [hk]
  · simp [hk]

theorem keys_dictSet_nodup (m : List (Nat × Int)) (k : Nat) (v : Int)
    (h : (m.map Prod.fst).Nodup) : ((dictSet m k v).map Prod.fst).Nodup := by
  unfold dictSet
  split
  · next hany =>
    rw [keys_mapReplace]
    exact h
  · next hany =>
    rw [List.map_append]
    simp only [List.map_cons, List.map_nil]
    rw [List.nodup_append]
    refine ⟨h, List.nodup_singleton k, ?_⟩
    intro a ha hk
    rw [List.mem_singleton] at hk
    subst hk
    rw [List.mem_map] at ha
    obtain ⟨p, hp, hpk⟩ := ha
    rw [List.any_eq_true] at hany
    exact hany ⟨p, hp, by simpa using hpk⟩

theorem dictGet_mapReplace_self (m : List (Nat × Int)) (k : Nat) (v : Int)
    (hany : (m.any (fun p => p.1 == k)) = true) :
    dictGet (m.map (fun p => if p.1 == k then (k, v) else p)) k = v := by
  induction m with
  | nil => simp at hany
  | cons p rest ih =>
    by_cases hk : p.1 = k
    · rw [List.map_cons, if_pos (by simpa using hk), dictGet_cons]
      simp
    · rw [List.map_cons, if_neg (by simpa using hk), dictGet_cons, if_neg hk]
      exact ih (by simpa [hk] using hany)

theorem dictGet_append_single (m : List (Nat × Int)) (k : Nat) (v : Int)
    (hany : ¬(m.any (fun p => p.1 == k)) = true) :
    dictGet (m ++ [(k, v)]) k = v := by
  induction m with
  | nil => simp [dictGet]
  | cons p rest ih =>
    have hpk : ¬(p.1 = k) := fun hk => hany (by simp [hk])
    rw [List.cons_append, dictGet_cons, if_neg hpk]
    exact ih (fun hc => hany (by simp [List.any_cons, hc]))

theorem dictGet_dictSet_self (m : List (Nat × Int)) (k : Nat) (v : Int) :
    dictGet (dictSet m k v) k = v := by
  unfold dictSet
  split
  · next hany => exact dictGet_mapReplace_self m k v hany
  · next hany => exact dictGet_append_single m k v hany

theorem dictGet_mapReplace_ne (m : List (Nat × Int)) (k : Nat) (v : Int) (a : Nat)
    (h : a ≠ k) :
    dictGet (m.map (fun p => if p.1 == k then (k, v) else p)) a = dictGet m a := by
  induction m with
  | nil => rfl
  | cons p rest ih =>
    rw [List.map_cons]
    by_cases hk : p.1 = k
    · rw [if_pos (by simpa using hk), dictGet_cons, dictGet_cons,
        if_neg (Ne.symm h), if_neg (by rw [hk]; exact Ne.symm h)]
      exact ih
    · rw [if_neg (by simpa using hk), dictGet_cons, dictGet_cons]
      by_cases hpa : p.1 = a
      · rw [if_pos hpa, if_pos hpa]
      · rw [if_neg hpa, if_neg hpa]
        exact ih

theorem dictGet_append_single_ne (m : List (Nat × Int)) (k : Nat) (v : Int) (a : Nat)
    (h : a ≠ k) : dictGet (m ++ [(k, v)]) a = dictGet m a := by
  induction m with
  | nil =>
    rw [List.nil_append, dictGet_cons, if_neg (Ne.symm h)]
  | cons p rest ih =>
    rw [List.cons_append, dictGet_cons, dictGet_cons]
    by_cases hpa : p.1 = a
    · rw [if_pos hpa, if_pos hpa]
    · rw [if_neg hpa, if_neg hpa]
      exact ih

theorem dictGet_dictSet_ne (m : List (Nat × Int)) (k : Nat) (v : Int) (a : Nat)
    (h : a ≠ k) : dictGet (dictSet m k v) a = dictGet m a := by
  unfold dictSet
  split
  · exact dictGet_mapReplace_ne m k v a h
  · exact dictGet_append_single_ne m k v a h

theorem sumVals_cons (p : Nat × Int) (m : List (Nat × Int)) :
    sumVals (p :: m) = p.2 + sumVals m := by
  simp [sumVals]

theorem sumVals_dictSet (m : List (Nat × Int)) (k : Nat) (v : Int)
    (h : (m.map Prod.fst).Nodup) :
    sumVals (dictSet m k v) = sumVals m - dictGet m k + v := by
  unfold dictSet
  split
  · next hany =>
    induction m with
    | nil => simp at hany
    | cons p rest ih =>
      rw [List.map_cons, sumVals_cons, dictGet_cons]
      rw [List.map_cons, List.nodup_cons] at h
      by_cases hk : p.1 = k
      · rw [if_pos (by simpa using hk), if_pos hk, sumVals_cons]
        have hrest : rest.map (fun p => if p.1 == k then (k, v) else p) = rest := by
          apply mapReplace_eq_self
          intro q hq hc
          have hqm : q.1 ∈ List.map Prod.fst rest := List.mem_map_of_mem Prod.fst hq
          rw [hc, ← hk] at hqm
          exact h.1 hqm
        rw [hrest]
        ring
      · rw [if_neg (by simpa using hk), if_neg hk, sumVals_cons]
        have hany' : rest.any (fun p => p.1 == k) = true := by
          rcases List.any_eq_true.mp hany with ⟨q, hq, hqk⟩
          rcases List.mem_cons.mp hq with rfl | hq'
          · exact absurd (by simpa using hqk) hk
          · exact List.any_eq_true.mpr ⟨q, hq', hqk⟩
        rw [ih h.2 hany']
        ring
  · next hany =>
    rw [dictGet_eq_zero_of_not_any m k hany]
    simp only [sumVals, List.map_append, List.sum_append, List.map_cons, List.map_nil,
      List.sum_cons, List.sum_nil]
    ring

theorem sum_map_ediv_le (l : List Int) (c : Int) (hc : 0 < c) :
    (l.map (· / c)).sum ≤ l.sum / c := by
  induction l with
  | nil => simp
  | cons a rest ih =>
    simp only [List.map_cons, List.sum_cons]
    have h1 : a / c + (rest.map (· / c)).sum ≤ a / c + rest.sum / c := by
      omega
    refine le_trans h1 ?_
    rw [Int.le_ediv_iff_mul_le hc, Int.add_mul]
    have ha : a / c * c ≤ a := Int.ediv_mul_le a (ne_of_gt hc)
    have hb : rest.sum / c * c ≤ rest.sum := Int.ediv_mul_le rest.sum (ne_of_gt hc)
    omega

theorem ediv_add_ediv_le (a b c : Int) (hc : 0 < c) : a / c + b / c ≤ (a + b) / c := by
  rw [Int.le_ediv_iff_mul_le hc, Int.add_mul]
  have ha : a / c * c ≤ a := Int.ediv_mul_le a (ne_of_gt hc)
  have hb : b / c * c ≤ b := Int.ediv_mul_le b (ne_of_gt hc)
  omega

theorem lastN_length_le (k : Nat) (l : List Nat) : (lastN k l).length ≤ k := by
  unfold lastN
  rw [List.length_drop]
  omega

/-! ### `amountsBase` facts -/

theorem keys_amountsBase (s : Nat) (weights : List (Nat × Nat)) (tw : Nat) :
    (amountsBase s weights tw).map Prod.fst = weights.map Prod.fst := by
  unfold amountsBase
  rw [List.map_map]
  rfl

theorem amountsBase_nonneg (s : Nat) (weights : List (Nat × Nat)) (tw : Nat)
    (q : Nat × Int) (hq : q ∈ amountsBase s weights tw) : 0 ≤ q.2 := by
  unfold amountsBase at hq
  rw [List.mem_map] at hq
  obtain ⟨p, -, hpq⟩ := hq
  rw [← hpq]
  exact Int.ediv_nonneg (by positivity) (by positivity)

theorem dictGet_amountsBase (s : Nat) (weights : List (Nat × Nat)) (tw : Nat)
    (sc w : Nat) (hkeys : (weights.map Prod.fst).Nodup) (hmem : (sc, w) ∈ weights) :
    dictGet (amountsBase s weights tw) sc =
      (s : Int) * (199 * (w : Int)) / (200 * (tw : Int)) := by
  induction weights with
  | nil => exact absurd hmem (List.not_mem_nil _)
  | cons p rest ih =>
    rw [List.map_cons, List.nodup_cons] at hkeys
    unfold amountsBase
    rw [List.map_cons, dictGet_cons]
    rcases List.mem_cons.mp hmem with rfl | hmem'
    · rw [if_pos rfl]
    · have hps : p.1 ≠ sc := by
        intro hc
        exact hkeys.1 (hc ▸ List.mem_map_of_mem Prod.fst hmem')
      rw [if_neg hps]
      exact ih hkeys.2 hmem'

theorem sumVals_amountsBase_le (s : Nat) (weights : List (Nat × Nat)) (tw dw : Nat)
    (hw : tw = (weights.map Prod.snd).sum + dw) (hnz : weights ≠ [] → 0 < tw) :
    sumVals (amountsBase s weights tw) ≤ (199 * (s : Int)) / 200 := by
  rcases eq_or_ne weights [] with rfl | hne
  · simp only [amountsBase, List.map_nil, sumVals, List.sum_nil]
    exact Int.ediv_nonneg (by positivity) (by norm_num)
  · have htw : 0 < tw := hnz hne
    have hc : (0 : Int) < 200 * (tw : Int) := by positivity
    have h1 : sumVals (amountsBase s weights tw) =
        ((weights.map (fun p => (s : Int) * (199 * (p.2 : Int)))).map
          (· / (200 * (tw : Int)))).sum := by
      unfold sumVals amountsBase
      rw [List.map_map, List.map_map]
      rfl
    rw [h1]
    refine le_trans (sum_map_ediv_le _ _ hc) ?_
    have h2 : (weights.map (fun p => (s : Int) * (199 * (p.2 : Int)))).sum =
        199 * (s : Int) * (weights.map (fun p => (p.2 : Int))).sum := by
      rw [← List.sum_map_mul_left]
      congr 1
      apply List.map_congr_left
      intro p _
      ring
    rw [h2]
    have h3 : (weights.map (fun p => (p.2 : Int))).sum ≤ (tw : Int) := by
      have : (weights.map (fun p => (p.2 : Int))).sum =
          (((weights.map Prod.snd).sum : Nat) : Int) := by
        rw [Nat.cast_list_sum, List.map_map]
        rfl
      rw [this]
      exact_mod_cast Nat.le.intro hw.symm
    have h4 : 199 * (s : Int) * (weights.map (fun p => (p.2 : Int))).sum ≤
        199 * (s : Int) * (tw : Int) := by
      have hnn : (0 : Int) ≤ 199 * (s : Int) := by positivity
      exact mul_le_mul_of_nonneg_left h3 hnn
    refine le_trans (Int.ediv_le_ediv hc h4) ?_
    rw [Int.mul_ediv_mul_of_pos_left (199 * (s : Int)) 200
      (show (0 : Int) < (tw : Int) by exact_mod_cast htw)]

/-! ### The payout split (C2) -/

set_option maxRecDepth 2048

/-- **C2.** Under the invariant the caller asserts (line 138:
`total_weight == sum(weights) + donation_weight`, with positive total weight
unless the weight dict is empty), `generate_transaction`'s amount pipeline
returns normally, and whenever it returns normally the amounts sum to exactly
`subsidy`, every amount is non-negative, the destination list is capped at
4000 scripts, and each weighted script not equal to the current pubkey script
or the donation script receives `subsidy*(199*weight)//(200*total_weight)`;
whenever the sum/non-negativity guard fails, the call errors instead of
returning. -/
theorem generate_amounts_spec :
    (∀ (subsidy : Nat) (weights : List (Nat × Nat)) (tw dw this_script : Nat),
      (weights.map Prod.fst).Nodup →
      tw = (weights.map Prod.snd).sum + dw →
      (weights ≠ [] → 0 < tw) →
      (∃ g, generate_amounts subsidy weights tw this_script = .ok g) ∧
      (∀ g, generate_amounts subsidy weights tw this_script = .ok g →
        sumVals g.amounts = (subsidy : Int) ∧
        (∀ q ∈ g.amounts, 0 ≤ q.2) ∧
        g.dests.length ≤ 4000 ∧
        (∀ sc w, (sc, w) ∈ weights → sc ≠ this_script → sc ≠ DONATION_SCRIPT_N →
          dictGet g.amounts sc =
            (subsidy : Int) * (199 * (w : Int)) / (200 * (tw : Int))))) ∧
    (∀ (subsidy : Nat) (weights : List (Nat × Nat)) (tw this_script : Nat),
      (sumVals (gaM2 subsidy weights tw this_script) ≠ (subsidy : Int) ∨
        (gaM2 subsidy weights tw this_script).any (fun p => p.2 < 0)) →
      ∀ g, generate_amounts subsidy weights tw this_script ≠ .ok g) := by
  constructor
  · intro subsidy weights tw dw this_script hkeys hw hnz
    have hk0 : ((amountsBase subsidy weights tw).map Prod.fst).Nodup := by
      rw [keys_amountsBase]
      exact hkeys
    have hk1 : ((gaM1 subsidy weights tw this_script).map Prod.fst).Nodup :=
      keys_dictSet_nodup _ _ _ hk0
    have hk2 : ((gaM2 subsidy weights tw this_script).map Prod.fst).Nodup :=
      keys_dictSet_nodup _ _ _ hk1
    have hm0nn : ∀ q ∈ amountsBase subsidy weights tw, 0 ≤ q.2 :=
      amountsBase_nonneg subsidy weights tw
    have hm1nn : ∀ q ∈ gaM1 subsidy weights tw this_script, 0 ≤ q.2 := by
      intro q hq
      rcases mem_dictSet _ _ _ _ hq with rfl | ⟨hq', -⟩
      · have h1 : 0 ≤ dictGet (amountsBase subsidy weights tw) this_script :=
          dictGet_nonneg _ _ hm0nn
        have h2 : (0 : Int) ≤ (subsidy : Int) / 200 :=
          Int.ediv_nonneg (by positivity) (by norm_num)
        simpa using add_nonneg h1 h2
      · exact hm0nn q hq'
    have hsum1 : sumVals (gaM1 subsidy weights tw this_script) =
        sumVals (amountsBase subsidy weights tw) + (subsidy : Int) / 200 := by
      unfold gaM1
      rw [sumVals_dictSet _ _ _ hk0]
      ring
    have hbase : sumVals (amountsBase subsidy weights tw) ≤ (199 * (subsidy : Int)) / 200 :=
      sumVals_amountsBase_le subsidy weights tw dw hw hnz
    have hsplit : (199 * (subsidy : Int)) / 200 + (subsidy : Int) / 200 ≤ (subsidy : Int) := by
      refine le_trans (ediv_add_ediv_le _ _ _ (by norm_num)) ?_
      have h200 : 199 * (subsidy : Int) + (subsidy : Int) = 200 * (subsidy : Int) := by ring
      rw [h200, Int.mul_ediv_cancel_left _ (by norm_num)]
    have hDbound : sumVals (gaM1 subsidy weights tw this_script) -
        dictGet (gaM1 subsidy weights tw this_script) DONATION_SCRIPT_N ≤
          (subsidy : Int) := by
      have hq200 : (0 : Int) ≤ (subsidy : Int) / 200 :=
        Int.ediv_nonneg (by positivity) (by norm_num)
      rcases eq_or_ne DONATION_SCRIPT_N this_script with hD | hD
      · have : dictGet (gaM1 subsidy weights tw this_script) DONATION_SCRIPT_N =
            dictGet (amountsBase subsidy weights tw) this_script + (subsidy : Int) / 200 := by
          unfold gaM1
          rw [hD, dictGet_dictSet_self]
        rw [this, hsum1]
        have hg0 : 0 ≤ dictGet (amountsBase subsidy weights tw) this_script :=
          dictGet_nonneg _ _ hm0nn
        omega
      · have : dictGet (gaM1 subsidy weights tw this_script) DONATION_SCRIPT_N =
            dictGet (amountsBase subsidy weights tw) DONATION_SCRIPT_N := by
          unfold gaM1
          exact dictGet_dictSet_ne _ _ _ _ hD
        rw [this, hsum1]
        have hg0 : 0 ≤ dictGet (amountsBase subsidy weights tw) DONATION_SCRIPT_N :=
          dictGet_nonneg _ _ hm0nn
        omega
    have hsum2 : sumVals (gaM2 subsidy weights tw this_script) = (subsidy : Int) := by
      unfold gaM2
      rw [sumVals_dictSet _ _ _ hk1]
      ring
    have hm2nn : ∀ q ∈ gaM2 subsidy weights tw this_script, 0 ≤ q.2 := by
      intro q hq
      rcases mem_dictSet _ _ _ _ hq with rfl | ⟨hq', -⟩
      · simp only
        omega
      · exact hm1nn q hq'
    have hguard : ¬(sumVals (gaM2 subsidy weights tw this_script) ≠ (subsidy : Int) ∨
        (gaM2 subsidy weights tw this_script).any (fun p => p.2 < 0)) := by
      rintro (hbad | hbad)
      · exact hbad hsum2
      · rw [List.any_eq_true] at hbad
        obtain ⟨q, hq, hlt⟩ := hbad
        have := hm2nn q hq
        simp only [decide_eq_true_eq] at hlt
        omega
    have hzd : ¬(weights ≠ [] ∧ tw = 0) := by
      rintro ⟨h1, h2⟩
      exact absurd h2 (Nat.pos_iff_ne_zero.mp (hnz h1))
    constructor
    · refine ⟨⟨gaM2 subsidy weights tw this_script,
        lastN 4000 (List.insertionSort (destLe (gaM2 subsidy weights tw this_script))
          ((gaM2 subsidy weights tw this_script).map Prod.fst))⟩, ?_⟩
      rw [generate_amounts, if_neg hzd, if_neg hguard]
    · intro g hg
      rw [generate_amounts, if_neg hzd, if_neg hguard] at hg
      have hgl : g = ⟨gaM2 subsidy weights tw this_script,
          lastN 4000 (List.insertionSort (destLe (gaM2 subsidy weights tw this_script))
            ((gaM2 subsidy weights tw this_script).map Prod.fst))⟩ :=
        (Except.ok.inj hg).symm
      have hga : g.amounts = gaM2 subsidy weights tw this_script := by rw [hgl]
      have hgd : g.dests =
          lastN 4000 (List.insertionSort (destLe (gaM2 subsidy weights tw this_script))
            ((gaM2 subsidy weights tw this_script).map Prod.fst)) := by rw [hgl]
      refine ⟨?_, ?_, ?_, ?_⟩
      · rw [hga]
        exact hsum2
      · rw [hga]
        exact hm2nn
      · rw [hgd]
        exact lastN_length_le _ _
      · intro sc w hmem hthis hD
        rw [hga]
        unfold gaM2 gaM1
        rw [dictGet_dictSet_ne _ _ _ _ hD, dictGet_dictSet_ne _ _ _ _ hthis]
        exact dictGet_amountsBase subsidy weights tw sc w hkeys hmem
  · intro subsidy weights tw this_script hbad g hg
    rw [generate_amounts] at hg
    split_ifs at hg with h1 h2

/-- Witness for C2: a concrete two-script weight map with total weight 10 and
donation weight 0 yields a normal return whose amounts sum to the subsidy. -/
theorem generate_amounts_spec_witness :
    (∃ g, generate_amounts 1000 [(1, 3), (2, 7)] 10 1 = Except.ok g) ∧
    (∀ g, generate_amounts 1000 [(1, 3), (2, 7)] 10 1 = Except.ok g →
      sumVals g.amounts = (1000 : Int)) := by
  have h := generate_amounts_spec.1 1000 [(1, 3), (2, 7)] 10 0 1
    (by decide) (by decide) (fun _ => by decide)
  exact ⟨h.1, fun g hg => (h.2 g hg).1⟩

/-! ### The coinbase output list (C10) -/

/-- The shape of a successful `generate_amounts` result. -/
theorem generate_amounts_ok_shape (subsidy : Nat) (weights : List (Nat × Nat))
    (tw this_script : Nat) (g : GenAmounts)
    (hg : generate_amounts subsidy weights tw this_script = .ok g) :
    g.amounts = gaM2 subsidy weights tw this_script ∧
    g.dests = lastN 4000 (List.insertionSort (destLe (gaM2 subsidy weights tw this_script))
      ((gaM2 subsidy weights tw this_script).map Prod.fst)) := by
  rw [generate_amounts] at hg
  split_ifs at hg with h1 h2
  have hgl : g = ⟨gaM2 subsidy weights tw this_script,
      lastN 4000 (List.insertionSort (destLe (gaM2 subsidy weights tw this_script))
        ((gaM2 subsidy weights tw this_script).map Prod.fst))⟩ :=
    (Except.ok.inj hg).symm
  exact ⟨by rw [hgl], by rw [hgl]⟩

theorem not_destLe_donation (m : List (Nat × Int)) (x : Nat)
    (hx : x ≠ DONATION_SCRIPT_N) : ¬ destLe m DONATION_SCRIPT_N x := by
  intro hle
  rw [destLe, destKey, destKey, Prod.Lex.le_iff] at hle
  simp [hx] at hle
  exact absurd hle (by decide)

/-- In a sorted duplicate-free list, an element nothing else may follow is the
last one. -/
theorem sorted_nodup_getLast? {r : Nat → Nat → Prop} (l : List Nat) (a : Nat)
    (hs : List.Sorted r l) (hnd : l.Nodup) (ha : a ∈ l)
    (hmax : ∀ x, x ≠ a → ¬ r a x) : l.getLast? = some a := by
  induction l with
  | nil => exact absurd ha (List.not_mem_nil a)
  | cons x t ih =>
    cases t with
    | nil =>
      rw [List.mem_singleton] at ha
      rw [ha]
      rfl
    | cons y t' =>
      rw [List.getLast?_cons_cons]
      rw [List.sorted_cons] at hs
      rw [List.nodup_cons] at hnd
      rcases List.mem_cons.mp ha with rfl | ha'
      · have hy : y ∈ y :: t' := List.mem_cons_self y t'
        have hxy : r a y := hs.1 y hy
        have hya : y ≠ a := fun hc => hnd.1 (hc ▸ hy)
        exact absurd hxy (hmax y hya)
      · exact ih hs.2 hnd.2 ha'

theorem mem_lastN (l : List Nat) (a : Nat) (k : Nat) (h : l.getLast? = some a)
    (hk : 1 ≤ k) : a ∈ lastN k l := by
  have hne : l ≠ [] := by
    intro he
    rw [he] at h
    exact Option.noConfusion h
  have hlen : 0 < l.length := List.length_pos.mpr hne
  have hdlen : 0 < (l.drop (l.length - k)).length := by
    rw [List.length_drop]
    omega
  have hdne : l.drop (l.length - k) ≠ [] := List.ne_nil_of_length_pos hdlen
  obtain ⟨b, hb⟩ := Option.isSome_iff_exists.mp (List.getLast?_isSome.mpr hdne)
  have hab : a = b := by
    have hsplit : l = l.take (l.length - k) ++ l.drop (l.length - k) :=
      (List.take_append_drop _ l).symm
    conv_lhs at h => rw [hsplit]
    rw [List.getLast?_append, hb] at h
    simpa [Option.or] using h.symm
  rw [hab]
  exact List.mem_of_mem_getLast? hb

theorem sum_map_filter_eq (l : List Nat) (p : Nat → Bool) (f : Nat → Int)
    (h : ∀ s ∈ l, p s = false → f s = 0) :
    ((l.filter p).map f).sum = (l.map f).sum := by
  induction l with
  | nil => rfl
  | cons a t ih =>
    have ih' := ih (fun s hs hps => h s (List.mem_cons_of_mem a hs) hps)
    rcases hp : p a with _ | _
    · have h0 : f a = 0 := h a (List.mem_cons_self a t) hp
      simp [List.filter_cons, hp, ih', h0]
    · simp [List.filter_cons, hp, ih']

/-- **C10.** In the coinbase output list, a destination with amount 0 is
omitted unless it is the donation script; the donation script is always
present (it sorts last, so the 4000-cap cannot drop it); the final output is
the zero-value ref-hash script; and omitting zero-value outputs does not
change the sum of the output values. -/
theorem generate_tx_outs_spec (subsidy : Nat) (weights : List (Nat × Nat))
    (tw this_script refScript : Nat) (g : GenAmounts)
    (hkeys : (weights.map Prod.fst).Nodup)
    (hg : generate_amounts subsidy weights tw this_script = .ok g) :
    DONATION_SCRIPT_N ∈ (generate_tx_outs g.amounts g.dests refScript).map Prod.snd ∧
    (generate_tx_outs g.amounts g.dests refScript).getLast? = some (0, refScript) ∧
    ((generate_tx_outs g.amounts g.dests refScript).map Prod.fst).sum =
      (g.dests.map (fun sc => dictGet g.amounts sc)).sum ∧
    (∀ sc ∈ g.dests, dictGet g.amounts sc = 0 → sc ≠ DONATION_SCRIPT_N →
      sc ≠ refScript →
      sc ∉ (generate_tx_outs g.amounts g.dests refScript).map Prod.snd) := by
  obtain ⟨hga, hgd⟩ := generate_amounts_ok_shape subsidy weights tw this_script g hg
  have hk0 : ((amountsBase subsidy weights tw).map Prod.fst).Nodup := by
    rw [keys_amountsBase]
    exact hkeys
  have hk2 : ((gaM2 subsidy weights tw this_script).map Prod.fst).Nodup :=
    keys_dictSet_nodup _ _ _ (keys_dictSet_nodup _ _ _ hk0)
  have hDkeys : DONATION_SCRIPT_N ∈ (gaM2 subsidy weights tw this_script).map Prod.fst := by
    unfold gaM2
    exact self_mem_keys_dictSet _ _ _
  have hDdests : DONATION_SCRIPT_N ∈ g.dests := by
    rw [hgd]
    apply mem_lastN _ _ _ _ (by norm_num)
    apply sorted_nodup_getLast? _ _
      (List.sorted_insertionSort _ _)
      ((List.perm_insertionSort _ _).nodup_iff.mpr hk2)
      ((List.mem_insertionSort _).mpr hDkeys)
    exact fun x hx => not_destLe_donation _ x hx
  refine ⟨?_, List.getLast?_concat _, ?_, ?_⟩
  · unfold generate_tx_outs
    rw [List.map_append, List.mem_append]
    left
    rw [List.map_map, List.mem_map]
    refine ⟨DONATION_SCRIPT_N, List.mem_filter.mpr ⟨hDdests, by simp⟩, rfl⟩
  · unfold generate_tx_outs
    rw [List.map_append, List.sum_append, List.map_map]
    have hcomp : ((g.dests.filter
        (fun s => (dictGet g.amounts s != 0) || (s == DONATION_SCRIPT_N))).map
          (Prod.fst ∘ fun s => (dictGet g.amounts s, s))).sum =
        ((g.dests.filter
          (fun s => (dictGet g.amounts s != 0) || (s == DONATION_SCRIPT_N))).map
            (fun s => dictGet g.amounts s)).sum := rfl
    rw [hcomp, sum_map_filter_eq]
    · simp
    · intro s _ hps
      rw [Bool.or_eq_false_iff] at hps
      simpa using hps.1
  · intro sc hsc h0 hD href hmem
    unfold generate_tx_outs at hmem
    rw [List.map_append, List.mem_append] at hmem
    rcases hmem with hmem | hmem
    · rw [List.map_map, List.mem_map] at hmem
      obtain ⟨s, hsf, hss⟩ := hmem
      have hssc : s = sc := hss
      subst hssc
      have := (List.mem_filter.mp hsf).2
      rw [h0] at this
      simp [hD] at this
    · simp only [List.map_cons, List.map_nil, List.mem_singleton] at hmem
      exact href hmem

/-- Witness for C10: the concrete amounts of `generate_amounts 1000
[(1, 3), (2, 7)] 10 1` always include the donation script among the output
scripts, and end with the zero-value ref output. -/
theorem generate_tx_outs_spec_witness :
    DONATION_SCRIPT_N ∈ (generate_tx_outs c10g.amounts c10g.dests 777).map Prod.snd ∧
    (generate_tx_outs c10g.amounts c10g.dests 777).getLast? = some (0, 777) := by
  have h := generate_tx_outs_spec 1000 [(1, 3), (2, 7)] 10 1 777 c10g
    (by decide) rfl
  exact ⟨h.1, h.2.1⟩

end P2Pool
